import Mathlib

/-!
Verification of the `SeparatedUnit` partition-management engine of Qrack
(`src/separatedunit.hpp`).

The repository source holds only the class declaration: the data members
`qubitLookup`, `qubitInverseLookup` and `coherentUnits`, and the signatures of
the public operations and of the internal helpers (`GetOrderedBitList`,
`GetParallelBitList`, `OptimizeParallelBitList`, `EntangleBitList`,
`QuickSortQubits`, `EntangleIndices`).  All member-function bodies are absent
from the source tree, so every operation below is modelled from the
specification's component design (spec sections 2-4), faithful to its words.

The dense per-unit state-vector engine (`CoherentUnit`) is external to this
subsystem (spec section 1).  Its state is modelled classically as a
computational-basis value per unit (`CUnit.val`), which is exact for the
permutation-state operations the specification's testable properties use
(construction from an integer state, `X`, register read-back).

The two lookup tables are, per the spec, always updated together atomically and
are exact inverses of each other; the model therefore stores the inverse table
(each unit's local-to-global list `CUnit.qbs`) as the single source of truth and
defines the forward table `qlookup` as its computed inverse.  The partition
invariant (every global index in exactly one unit, sum of widths = N) is then a
genuine property of the reachable states, proved below.
-/

namespace Qrack

/-- One forward-lookup entry: owning unit handle and local index (mirrors the
`QbLookup` struct of the source header). -/
structure QbLookup where
  cu : Nat
  qb : Nat
deriving DecidableEq

/-- One bit-run descriptor: unit handle, local start, run length (mirrors the
`QbListEntry` struct of the source header). -/
structure QbListEntry where
  cu : Nat
  start : Nat
  length : Nat
deriving DecidableEq

/-- Modelled from the spec: a coherent unit, holding its local-to-global index
list (the inverse lookup restricted to this unit; its length is the unit's
width) and its computational-basis state value (bit `i` of `val` is the state of
the qubit at local index `i`).  The dense amplitude engine is external. -/
structure CUnit where
  qbs : List Nat
  val : Nat
deriving DecidableEq

/-- Modelled from the spec: the state of a `SeparatedUnit` partition engine —
the list of live coherent units (unit handles are positions in this list) and
the tracked total qubit count `N`. -/
structure SepState where
  units : List CUnit
  nBits : Nat
deriving DecidableEq

/-- Position of the first occurrence of `g` in a list (length of the list when
absent). -/
def posOf (g : Nat) : List Nat → Nat
  | [] => 0
  | x :: xs => if x = g then 0 else posOf g xs + 1

/-- Pair each element with its position, starting from `k`. -/
def withIdx (k : Nat) : List CUnit → List (Nat × CUnit)
  | [] => []
  | u :: us => (k, u) :: withIdx (k + 1) us

/-- Remove duplicates keeping the first occurrence of each element. -/
def dedupF : List Nat → List Nat
  | [] => []
  | x :: xs => x :: (dedupF xs).filter (fun y => ¬ y = x)

/-- Modelled from the spec: the forward Global Index Table lookup
(`qubitLookup` in the source header), computed as the inverse of the per-unit
local-to-global lists.  Returns the first unit containing the global index,
with the local position inside it; `none` for a dead index. -/
def qlookupAux (g : Nat) : Nat → List CUnit → Option QbLookup
  | _, [] => none
  | i, u :: us => if g ∈ u.qbs then some ⟨i, posOf g u.qbs⟩ else qlookupAux g (i + 1) us

/-- Modelled from the spec: `locate(global) -> (unit, local)` of the Global
Index Table. -/
def qlookup (s : SepState) (g : Nat) : Option QbLookup :=
  qlookupAux g 0 s.units

/-- Modelled from the spec: the inverse lookup table (`qubitInverseLookup` in
the source header), mapping a (unit, local) pair back to its global index. -/
def qubitInverseLookup (s : SepState) (c i : Nat) : Option Nat :=
  (s.units[c]?).bind (fun u => u.qbs[i]?)

/-- All live global indices, listed unit by unit. -/
def allGlobals (s : SepState) : List Nat :=
  (s.units.map CUnit.qbs).flatten

/-- The structural partition invariant: the global indices spread over the
units are exactly `0..N-1`, each once, and no unit is empty. -/
def wf (s : SepState) : Prop :=
  (allGlobals s).Perm (List.range s.nBits) ∧ ∀ u ∈ s.units, u.qbs ≠ []

instance (s : SepState) : Decidable (wf s) :=
  inferInstanceAs
    (Decidable ((allGlobals s).Perm (List.range s.nBits) ∧ ∀ u ∈ s.units, u.qbs ≠ []))

/-- Modelled from the spec: the basis-state value of one qubit, read by
delegating to the owning unit at the located local index. -/
def readBit (s : SepState) (g : Nat) : Nat :=
  match qlookup s g with
  | some l => ((match s.units[l.cu]? with | some u => u.val | none => 0) >>> l.qb) % 2
  | none => 0

/-- Pack the basis bits of the listed globals into an integer, least
significant first. -/
def packBits (s : SepState) : List Nat → Nat
  | [] => 0
  | g :: gs => readBit s g + 2 * packBits s gs

/-- Unit handle owning a global index (0 for a dead index). -/
def cuOf (s : SepState) (g : Nat) : Nat :=
  ((qlookup s g).getD ⟨0, 0⟩).cu

/-- Local-to-global list of the unit at a handle. -/
def unitQbs (s : SepState) (c : Nat) : List Nat :=
  ((s.units[c]?).map CUnit.qbs).getD []

/-- Sanitize a requested global-index list: drop duplicates and dead indices
(a zero-qubit request is a no-op per the spec's edge handling). -/
def liveGs (s : SepState) (raw : List Nat) : List Nat :=
  (dedupF raw).filter (fun g => (qlookup s g).isSome)

/-- Merged pool of local-to-global lists of the units referenced by an
entangle, destination `d` first, the merged-away units' indices appended after
in merge order. -/
def ecPool (s : SepState) (d : Nat) (rest : List Nat) : List Nat :=
  ((d :: rest).map (unitQbs s)).flatten

/-- Local-to-global list of the fused unit: the requested qubits first, in the
requested order, then the remaining merged qubits in their prior order. -/
def ecQbs (s : SepState) (gs : List Nat) (d : Nat) (rest : List Nat) : List Nat :=
  gs ++ (ecPool s d rest).filter (fun g => ¬ g ∈ gs)

/-- The fused unit: reordered local-to-global list with its basis value carried
through the permutation. -/
def ecMerged (s : SepState) (gs : List Nat) (d : Nat) (rest : List Nat) : CUnit :=
  ⟨ecQbs s gs d rest, packBits s (ecQbs s gs d rest)⟩

/-- Per-position contribution of an entangle to the local-to-global lists: the
destination gets the fused list, merged-away units are emptied, others are
untouched. -/
def ecPsi (s : SepState) (gs : List Nat) (d : Nat) (rest : List Nat) (p : Nat × CUnit) : List Nat :=
  if p.1 = d then ecQbs s gs d rest else if p.1 ∈ rest then [] else p.2.qbs

/-- Modelled from the spec: the Entangler's merge-and-reorder step on a
requested global list `gs` whose owning units are `d :: rest` in
first-appearance order.  The referenced units are tensor-merged in that order
into the destination `d` (each merged-away unit's local indices appended after
the destination's), the merged-away units are removed from the live set, and
the fused unit's local indices are permuted so the requested qubits sit at the
contiguous local offsets `0..k-1` in the requested order, the remaining qubits
following in their prior order; both lookup directions reflect the result. -/
def entangleCore (s : SepState) (gs : List Nat) (d : Nat) (rest : List Nat) : SepState :=
  { units := (withIdx 0 s.units).filterMap (fun p =>
      if p.1 = d then some (ecMerged s gs d rest) else if p.1 ∈ rest then none else some p.2),
    nBits := s.nBits }

/-- Modelled from the spec: the Entangler entry point on a list of global
indices.  An empty (after sanitizing) request is a no-op. -/
def entangleGlobals (s : SepState) (raw : List Nat) : SepState :=
  let gs := liveGs s raw
  let cus := dedupF (gs.map (cuOf s))
  if cus.isEmpty then s else entangleCore s gs (cus.headD 0) cus.tail

/-- Global indices covered by one bit-run descriptor, via the inverse table. -/
def entryGlobals (s : SepState) (e : QbListEntry) : List Nat :=
  (List.range e.length).map (fun i => (qubitInverseLookup s e.cu (e.start + i)).getD 0)

/-- Global indices requested by a bit list, in list order. -/
def qbListGlobals (s : SepState) (l : List QbListEntry) : List Nat :=
  (l.map (entryGlobals s)).flatten

/-- Modelled from the spec: `EntangleBitList` — entangle and sort the indices
of a list of coherent-unit runs (the order-preserving entangle path). -/
def EntangleBitList (s : SepState) (l : List QbListEntry) : SepState :=
  entangleGlobals s (qbListGlobals s l)

/-- Modelled from the spec: `EntangleIndices` — convenience entangle of a small
index set, used by the 2-3 qubit gates. -/
def EntangleIndices (s : SepState) (idxs : List Nat) : SepState :=
  entangleGlobals s idxs

/-- Forward-lookup entry of a global index, defaulted for dead indices. -/
def lkOf (s : SepState) (g : Nat) : QbLookup :=
  (qlookup s g).getD ⟨0, 0⟩

/-- Lookup entries of a contiguous global range, in index order. -/
def rangeLks (s : SepState) (start len : Nat) : List QbLookup :=
  (List.range len).map (fun i => lkOf s (start + i))

/-- Modelled from the spec: run compiler shared by both bit-list entry points —
walk the lookup entries in order, merging an entry into the following run when
it names the same unit at the immediately preceding local index. -/
def buildRuns : List QbLookup → List QbListEntry
  | [] => []
  | p :: ps =>
    match buildRuns ps with
    | [] => [⟨p.cu, p.qb, 1⟩]
    | e :: rest =>
      if p.cu = e.cu ∧ p.qb + 1 = e.start then ⟨e.cu, p.qb, e.length + 1⟩ :: rest
      else ⟨p.cu, p.qb, 1⟩ :: e :: rest

/-- Modelled from the spec: `GetOrderedBitList` — order-preserving compilation
of a contiguous global range into (unit, local start, length) runs whose
concatenation reproduces the exact bit order of the range. -/
def GetOrderedBitList (s : SepState) (start len : Nat) : List QbListEntry :=
  buildRuns (rangeLks s start len)

/-- Insert a lookup entry into a list sorted by (unit, local). -/
def insertLk (a : QbLookup) : List QbLookup → List QbLookup
  | [] => [a]
  | b :: rest =>
    if a.cu < b.cu ∨ (a.cu = b.cu ∧ a.qb ≤ b.qb) then a :: b :: rest else b :: insertLk a rest

/-- Sort lookup entries by (unit, local). -/
def sortLks : List QbLookup → List QbLookup
  | [] => []
  | a :: rest => insertLk a (sortLks rest)

/-- Modelled from the spec: `GetParallelBitList` — order-independent
compilation: the range's lookup entries are sorted by (unit, local) and
adjacent entries are coalesced into runs, so same-unit qubits group together
regardless of global order. -/
def GetParallelBitList (s : SepState) (start len : Nat) : List QbListEntry :=
  buildRuns (sortLks (rangeLks s start len))

/-- Insert a run descriptor into a list sorted by (unit, local start). -/
def insertE (a : QbListEntry) : List QbListEntry → List QbListEntry
  | [] => [a]
  | b :: rest =>
    if a.cu < b.cu ∨ (a.cu = b.cu ∧ a.start ≤ b.start) then a :: b :: rest else b :: insertE a rest

/-- Sort run descriptors by (unit, local start). -/
def sortEs : List QbListEntry → List QbListEntry
  | [] => []
  | a :: rest => insertE a (sortEs rest)

/-- Merge consecutive descriptors that name the same unit at immediately
adjacent local ranges. -/
def mergeAdj : List QbListEntry → List QbListEntry
  | [] => []
  | a :: rest =>
    match mergeAdj rest with
    | [] => [a]
    | b :: rest2 =>
      if a.cu = b.cu ∧ a.start + a.length = b.start then ⟨a.cu, a.start, a.length + b.length⟩ :: rest2
      else a :: b :: rest2

/-- Modelled from the spec: `OptimizeParallelBitList` — optimize a (possibly
combined) list returned by `GetParallelBitList` by the same logic as that
algorithm: sort by (unit, local start) and merge the descriptors that share a
unit handle at adjacent local ranges. -/
def OptimizeParallelBitList (l : List QbListEntry) : List QbListEntry :=
  mergeAdj (sortEs l)

/-- Lookup entries covered by one run descriptor, in run order. -/
def expandEntry (e : QbListEntry) : List QbLookup :=
  (List.range e.length).map (fun i => (⟨e.cu, e.start + i⟩ : QbLookup))

/-- The (unit, local) positions covered by one run descriptor. -/
def coveredPairs (e : QbListEntry) : List (Nat × Nat) :=
  (List.range e.length).map (fun i => (e.cu, e.start + i))

/-- The (unit, local) positions covered by a whole bit list. -/
def pairsOf (l : List QbListEntry) : List (Nat × Nat) :=
  (l.map coveredPairs).flatten

/-- Modelled from the spec: construction of `N` qubits matching an unsigned
integer permutation state — one fresh single-qubit unit per global index,
unit `g` holding bit `g` of the initial state.  The constructor arguments pass
through the source types `bitLenInt` (`uint8_t`) and `bitCapInt` (`uint64_t`). -/
def initSU (qBitCount initState : Nat) : SepState :=
  { units := (List.range (qBitCount % 256)).map
      (fun g => ⟨[g], ((initState % 2 ^ 64) >>> g) % 2⟩),
    nBits := qBitCount % 256 }

/-- Modelled from the spec: the `X` gate on one qubit — locate the qubit and
delegate the bit flip to its owning unit at the located local index.  An
out-of-range index is a caller error and leaves the state unchanged. -/
def Xgate (s : SepState) (q : Nat) : SepState :=
  match qlookup s q with
  | none => s
  | some l =>
    match s.units[l.cu]? with
    | none => s
    | some u => { s with units := s.units.set l.cu ⟨u.qbs, Nat.xor u.val (2 ^ l.qb)⟩ }

/-- Modelled from the spec: the register-wide `X(start, length)` — compile the
order-independent bit list, optimize it, entangle, then delegate the bitwise
flips to the resulting unit. -/
def XRange (s : SepState) (start len : Nat) : SepState :=
  let t := EntangleBitList s (OptimizeParallelBitList (GetParallelBitList s start len))
  (List.range len).foldl (fun st i => Xgate st (start + i)) t

/-- Basis-state value of a contiguous global register, least significant bit at
`start`. -/
def regVal (s : SepState) (start len : Nat) : Nat :=
  packBits s ((List.range len).map (fun i => start + i))

/-- Modelled from the spec: `MReg` — compile the order-preserving bit list,
entangle, and delegate the register sampling to the owning unit.  On the
basis-state model the sampled outcome is the deterministic register value,
reduced into `bitCapInt` (`uint64_t`). -/
def MReg (s : SepState) (start len : Nat) : Nat × SepState :=
  let t := EntangleBitList s (GetOrderedBitList s start len)
  (regVal t start len % 2 ^ 64, t)

/-- Modelled from the spec: `Cohere` — absorb another register's qubits as new
global indices at the end of the current index space, appending its units to
the live set with no reordering; `N` grows by the absorbed width.  The
`CoherentUnit` overload is the single-unit case. -/
def Cohere (s t : SepState) : SepState :=
  { units := s.units ++ t.units.map (fun u => ⟨u.qbs.map (fun g => g + s.nBits), u.val⟩),
    nBits := s.nBits + t.nBits }

/-- Keep predicate of a `Decohere`/`Dispose` of the global range
`[start, start+len)`. -/
def keepPred (start len g : Nat) : Bool :=
  decide (g < start) || decide (start + len ≤ g)

/-- Global-index compaction of a `Decohere`/`Dispose`: indices above the
removed range shift down by its length. -/
def shiftG (start len g : Nat) : Nat :=
  if start + len ≤ g then g - len else g

/-- Drop the non-kept local positions of one unit: the kept globals (renamed by
`f`) in order, with the unit's basis value repacked over the kept positions. -/
def extractKeep (p : Nat → Bool) (f : Nat → Nat) : List Nat → Nat → List Nat × Nat
  | [], _ => ([], 0)
  | g :: gs, v =>
    let r := extractKeep p f gs (v / 2)
    if p g then (f g :: r.1, v % 2 + 2 * r.2) else r

/-- Modelled from the spec: remove the global range `[start, start+len)` from
both tables, compacting subsequent global indices downward; a unit fully
consumed is removed entirely rather than kept empty. -/
def removeRange (s : SepState) (start len : Nat) : SepState :=
  { units := s.units.filterMap (fun u =>
      let r := extractKeep (keepPred start len) (shiftG start len) u.qbs u.val
      match r.1 with
      | [] => none
      | q :: qs => some ⟨q :: qs, r.2⟩),
    nBits := s.nBits - len }

/-- Modelled from the spec: `Decohere` — compile the ordered bit list for the
range, entangle it into one unit, extract exactly the requested qubits into a
fresh destination unit, and shrink the remaining partition, compacting the
global index space.  The caller contracts that the range is separable (exact on
the basis-state model); an out-of-range request is a caller error and is
rejected unchanged. -/
def Decohere (s : SepState) (start len : Nat) : SepState × CUnit :=
  if start + len ≤ s.nBits then
    let t := EntangleBitList s (GetOrderedBitList s start len)
    (removeRange t start len, ⟨List.range len, regVal t start len⟩)
  else (s, ⟨[], 0⟩)

/-- Modelled from the spec: `Dispose` — identical compilation, entangle and
removal steps as `Decohere`, discarding the extracted amplitudes. -/
def Dispose (s : SepState) (start len : Nat) : SepState :=
  (Decohere s start len).1

/-- Modelled from the spec: `CCNOT` — entangle the three indices via the
convenience path, then delegate the doubly-controlled flip (exact on basis
states). -/
def CCNOT (s : SepState) (a b c : Nat) : SepState :=
  let t := EntangleIndices s [a, b, c]
  if readBit t a = 1 ∧ readBit t b = 1 then Xgate t c else t

/-- Modelled from the spec: two-qubit `Swap` — entangle the two indices, then
delegate the swap (on basis states, flip both bits when they differ). -/
def SwapG (s : SepState) (a b : Nat) : SepState :=
  let t := EntangleIndices s [a, b]
  if readBit t a = readBit t b then t else Xgate (Xgate t a) b

/-- Modelled from the source typedefs: `bitLenInt` is `uint8_t`, so qubit-index
arithmetic such as `start + length` is carried out modulo 256. -/
def add8 (a b : Nat) : Nat :=
  (a + b) % 256

/-- Modelled from the source typedefs: the successive lookup-table indices a
range walk touches when `start + i` is computed in `bitLenInt` (`uint8_t`)
arithmetic — the walk wraps silently instead of failing. -/
def rangeIndices8 (start len : Nat) : List Nat :=
  (List.range (len % 256)).map (fun i => add8 start i)

/-- States reachable from construction by the modelled public operations. -/
inductive Reachable : SepState → Prop
  | init (q v : Nat) : Reachable (initSU q v)
  | xg (s : SepState) (q : Nat) : Reachable s → Reachable (Xgate s q)
  | xr (s : SepState) (a l : Nat) : Reachable s → Reachable (XRange s a l)
  | mr (s : SepState) (a l : Nat) : Reachable s → Reachable (MReg s a l).2
  | ccnot (s : SepState) (a b c : Nat) : Reachable s → Reachable (CCNOT s a b c)
  | swap (s : SepState) (a b : Nat) : Reachable s → Reachable (SwapG s a b)
  | cohere (s t : SepState) : Reachable s → Reachable t → Reachable (Cohere s t)
  | dispose (s : SepState) (a l : Nat) : Reachable s → Reachable (Dispose s a l)
  | decohere (s : SepState) (a l : Nat) : Reachable s → Reachable (Decohere s a l).1

end Qrack
namespace Qrack

theorem posOf_getElem? {g : Nat} : ∀ {l : List Nat}, g ∈ l → l[posOf g l]? = some g := by
  intro l h
  induction l with
  | nil => cases h
  | cons x xs ih =>
    by_cases hx : x = g
    · subst hx; simp [posOf]
    · have hmem : g ∈ xs := by
        rcases List.mem_cons.mp h with h1 | h1
        · exact absurd h1.symm hx
        · exact h1
      simp [posOf, hx, ih hmem]

theorem posOf_lt_length {g : Nat} {l : List Nat} (h : g ∈ l) : posOf g l < l.length := by
  have := posOf_getElem? h
  rcases List.getElem?_eq_some.mp this with ⟨hlt, _⟩
  exact hlt

theorem posOf_eq_of_getElem? {g : Nat} : ∀ {l : List Nat} {i : Nat},
    l.Nodup → l[i]? = some g → posOf g l = i := by
  intro l
  induction l with
  | nil => intro i _ h; simp at h
  | cons x xs ih =>
    intro i hnd hget
    cases i with
    | zero =>
      simp at hget
      simp [posOf, hget]
    | succ n =>
      rw [List.getElem?_cons_succ] at hget
      have hx : ¬ x = g := by
        intro hxg
        subst hxg
        have hmem : x ∈ xs := by
          rcases List.getElem?_eq_some.mp hget with ⟨hlt, hv⟩
          rw [← hv]
          exact List.getElem_mem hlt
        exact (List.nodup_cons.mp hnd).1 hmem
      simp [posOf, hx, ih (List.nodup_cons.mp hnd).2 hget]

theorem posOf_append_left {g : Nat} {l1 l2 : List Nat} (h : g ∈ l1) :
    posOf g (l1 ++ l2) = posOf g l1 := by
  induction l1 with
  | nil => cases h
  | cons x xs ih =>
    by_cases hx : x = g
    · simp [posOf, hx]
    · have hmem : g ∈ xs := by
        rcases List.mem_cons.mp h with h1 | h1
        · exact absurd h1.symm hx
        · exact h1
      simp [posOf, hx, ih hmem]

theorem withIdx_getElem? : ∀ (us : List CUnit) (k j : Nat),
    (withIdx k us)[j]? = (us[j]?).map (fun u => (k + j, u)) := by
  intro us
  induction us with
  | nil => intro k j; simp [withIdx]
  | cons u us ih =>
    intro k j
    cases j with
    | zero => simp [withIdx]
    | succ n =>
      simp only [withIdx, List.getElem?_cons_succ, ih (k + 1) n]
      have : k + 1 + n = k + (n + 1) := by omega
      rw [this]

theorem withIdx_map_snd : ∀ (us : List CUnit) (k : Nat), (withIdx k us).map Prod.snd = us := by
  intro us
  induction us with
  | nil => intro k; simp [withIdx]
  | cons u us ih => intro k; simp [withIdx, ih (k + 1)]

theorem withIdx_fst_ge {us : List CUnit} {k : Nat} {p : Nat × CUnit}
    (h : p ∈ withIdx k us) : k ≤ p.1 := by
  induction us generalizing k with
  | nil => cases h
  | cons u us ih =>
    rcases List.mem_cons.mp h with h1 | h1
    · subst h1; exact Nat.le_refl k
    · exact Nat.le_of_succ_le (ih h1)

theorem mem_withIdx {us : List CUnit} {k : Nat} {p : Nat × CUnit} :
    p ∈ withIdx k us ↔ ∃ j, p.1 = k + j ∧ us[j]? = some p.2 := by
  constructor
  · intro h
    rcases List.mem_iff_getElem?.mp h with ⟨j, hj⟩
    rw [withIdx_getElem?] at hj
    rcases Option.map_eq_some'.mp hj with ⟨u, hu, hpu⟩
    exact ⟨j, by rw [← hpu], by rw [← hpu]; exact hu⟩
  · rintro ⟨j, hp1, hget⟩
    apply List.mem_iff_getElem?.mpr ⟨j, ?_⟩
    rw [withIdx_getElem?, hget]
    simp only [Option.map_some', Option.some.injEq]
    cases p
    simp only at hp1
    simp [hp1]

theorem withIdx_filter_eq_idx : ∀ (us : List CUnit) (k j : Nat) (u : CUnit),
    us[j]? = some u →
    (withIdx k us).filter (fun p => p.1 = k + j) = [(k + j, u)] := by
  intro us
  induction us with
  | nil => intro k j u h; simp at h
  | cons u0 us ih =>
    intro k j u h
    cases j with
    | zero =>
      simp at h
      subst h
      have htail : (withIdx (k + 1) us).filter (fun p => p.1 = k + 0) = [] := by
        apply List.filter_eq_nil_iff.mpr
        intro p hp
        have h2 := withIdx_fst_ge hp
        simp only [decide_eq_true_eq]
        omega
      simp [withIdx, List.filter_cons, htail]
      intro a b hp
      have hge := withIdx_fst_ge hp
      simp only at hge
      omega
    | succ n =>
      rw [List.getElem?_cons_succ] at h
      have := ih (k + 1) n u h
      have harith : k + 1 + n = k + (n + 1) := by omega
      rw [harith] at this
      have hne : ¬ (k = k + (n + 1)) := by omega
      simp [withIdx, List.filter_cons, hne, this]

theorem mem_dedupF {g : Nat} : ∀ {l : List Nat}, g ∈ dedupF l ↔ g ∈ l := by
  intro l
  induction l with
  | nil => simp [dedupF]
  | cons x xs ih =>
    by_cases hx : g = x
    · subst hx; simp [dedupF]
    · simp [dedupF, List.mem_filter, hx, ih]

theorem nodup_dedupF : ∀ (l : List Nat), (dedupF l).Nodup := by
  intro l
  induction l with
  | nil => simp [dedupF]
  | cons x xs ih =>
    apply List.nodup_cons.mpr
    constructor
    · intro hmem
      have := List.mem_filter.mp hmem
      simp at this
    · exact List.Nodup.filter _ ih

theorem dedupF_eq_self : ∀ {l : List Nat}, l.Nodup → dedupF l = l := by
  intro l
  induction l with
  | nil => intro _; rfl
  | cons x xs ih =>
    intro hnd
    have h1 := (List.nodup_cons.mp hnd).1
    have h2 := (List.nodup_cons.mp hnd).2
    simp only [dedupF, ih h2]
    congr 1
    apply List.filter_eq_self.mpr
    intro a ha
    simp
    intro hax
    subst hax
    exact h1 ha

theorem dedupF_eq_nil : ∀ {l : List Nat}, dedupF l = [] ↔ l = [] := by
  intro l
  cases l with
  | nil => simp [dedupF]
  | cons x xs => simp [dedupF]

theorem dedupF_of_const {u : Nat} {f : Nat → Nat} : ∀ {l : List Nat},
    (∀ x ∈ l, f x = u) → l ≠ [] → dedupF (l.map f) = [u] := by
  intro l
  induction l with
  | nil => intro _ h; exact absurd rfl h
  | cons x xs ih =>
    intro hc _
    have hx : f x = u := hc x (List.mem_cons_self x xs)
    by_cases hxs : xs = []
    · subst hxs; simp [dedupF, hx]
    · have := ih (fun y hy => hc y (List.mem_cons_of_mem x hy)) hxs
      simp only [List.map_cons, dedupF, this, hx]
      simp

end Qrack
namespace Qrack

theorem qlookupAux_shift (g : Nat) : ∀ (us : List CUnit) (k : Nat),
    qlookupAux g k us = (qlookupAux g 0 us).map (fun l => ⟨l.cu + k, l.qb⟩) := by
  intro us
  induction us with
  | nil => intro k; rfl
  | cons u us ih =>
    intro k
    by_cases hg : g ∈ u.qbs
    · simp [qlookupAux, hg]
    · simp only [qlookupAux, if_neg hg]
      rw [ih (k + 1), ih 1, Option.map_map]
      congr 1
      funext l
      simp
      omega

theorem qlookupAux_eq_none {g : Nat} : ∀ {us : List CUnit} {k : Nat},
    qlookupAux g k us = none ↔ ∀ u ∈ us, g ∉ u.qbs := by
  intro us
  induction us with
  | nil => intro k; simp [qlookupAux]
  | cons u us ih =>
    intro k
    by_cases hg : g ∈ u.qbs
    · simp [qlookupAux, hg]
    · simp [qlookupAux, hg, ih]

theorem qlookupAux_complete {g : Nat} : ∀ {us : List CUnit} {c : Nat} {u : CUnit},
    ((us.map CUnit.qbs).flatten).Nodup → us[c]? = some u → g ∈ u.qbs →
    qlookupAux g 0 us = some ⟨c, posOf g u.qbs⟩ := by
  intro us
  induction us with
  | nil => intro c u _ h; simp at h
  | cons u0 us ih =>
    intro c u hnd hc hg
    have hnd2 : ((us.map CUnit.qbs).flatten).Nodup ∧ u0.qbs.Disjoint ((us.map CUnit.qbs).flatten) := by
      simp only [List.map_cons, List.flatten_cons] at hnd
      have h2 := List.nodup_append.mp hnd
      exact ⟨h2.2.1, h2.2.2⟩
    cases c with
    | zero =>
      simp at hc
      subst hc
      simp [qlookupAux, hg]
    | succ n =>
      rw [List.getElem?_cons_succ] at hc
      have hg0 : g ∉ u0.qbs := by
        intro hmem
        apply hnd2.2 hmem
        apply List.mem_flatten.mpr
        refine ⟨u.qbs, ?_, hg⟩
        apply List.mem_map.mpr
        refine ⟨u, ?_, rfl⟩
        rcases List.getElem?_eq_some.mp hc with ⟨hlt, hv⟩
        rw [← hv]
        exact List.getElem_mem hlt
      simp only [qlookupAux, if_neg hg0]
      rw [qlookupAux_shift, ih hnd2.1 hc hg]
      rfl

theorem qlookupAux_sound {g : Nat} : ∀ {us : List CUnit} {c j : Nat},
    qlookupAux g 0 us = some ⟨c, j⟩ →
    ∃ u, us[c]? = some u ∧ g ∈ u.qbs ∧ j = posOf g u.qbs := by
  intro us
  induction us with
  | nil => intro c j h; simp [qlookupAux] at h
  | cons u0 us ih =>
    intro c j h
    by_cases hg : g ∈ u0.qbs
    · simp [qlookupAux, hg] at h
      rcases h with ⟨hc, hj⟩
      exact ⟨u0, by simp [← hc], hg, hj.symm⟩
    · simp only [qlookupAux, if_neg hg] at h
      rw [qlookupAux_shift] at h
      rcases Option.map_eq_some'.mp h with ⟨l, hl, hlc⟩
      have hc : c = l.cu + 1 := by
        have := congrArg QbLookup.cu hlc
        simpa using this.symm
      have hj : j = l.qb := by
        have := congrArg QbLookup.qb hlc
        simpa using this.symm
      subst hc
      subst hj
      rcases ih (by rw [hl]) with ⟨u, hu, hgu, hju⟩
      exact ⟨u, by simpa using hu, hgu, hju⟩

theorem qlookup_eq_none_iff {s : SepState} {g : Nat} :
    qlookup s g = none ↔ g ∉ allGlobals s := by
  rw [qlookup, qlookupAux_eq_none, allGlobals]
  constructor
  · intro h hmem
    rcases List.mem_flatten.mp hmem with ⟨l, hl, hgl⟩
    rcases List.mem_map.mp hl with ⟨u, hu, hul⟩
    exact h u hu (hul ▸ hgl)
  · intro h u hu hgu
    apply h
    apply List.mem_flatten.mpr
    exact ⟨u.qbs, List.mem_map.mpr ⟨u, hu, rfl⟩, hgu⟩

theorem qlookup_isSome_iff {s : SepState} {g : Nat} :
    (qlookup s g).isSome ↔ g ∈ allGlobals s := by
  rw [← Decidable.not_iff_not, Option.not_isSome_iff_eq_none, qlookup_eq_none_iff]

theorem nodupAll (s : SepState) (hwf : wf s) : ((s.units.map CUnit.qbs).flatten).Nodup :=
  hwf.1.nodup_iff.mpr (List.nodup_range s.nBits)

theorem qlookup_complete {s : SepState} {g c : Nat} {u : CUnit}
    (hnd : ((s.units.map CUnit.qbs).flatten).Nodup) (hc : s.units[c]? = some u)
    (hg : g ∈ u.qbs) : qlookup s g = some ⟨c, posOf g u.qbs⟩ :=
  qlookupAux_complete hnd hc hg

theorem qlookup_sound {s : SepState} {g c j : Nat} (h : qlookup s g = some ⟨c, j⟩) :
    ∃ u, s.units[c]? = some u ∧ g ∈ u.qbs ∧ j = posOf g u.qbs :=
  qlookupAux_sound h

theorem wf_mem_iff {s : SepState} (hwf : wf s) {g : Nat} :
    g ∈ allGlobals s ↔ g < s.nBits := by
  rw [hwf.1.mem_iff, List.mem_range]

theorem wf_isSome_iff {s : SepState} (hwf : wf s) {g : Nat} :
    (qlookup s g).isSome ↔ g < s.nBits := by
  rw [qlookup_isSome_iff, wf_mem_iff hwf]

theorem wf_unit_nodup {s : SepState} (hwf : wf s) {u : CUnit} (hu : u ∈ s.units) :
    u.qbs.Nodup := by
  have h := (List.nodup_flatten.mp (nodupAll s hwf)).1
  exact h u.qbs (List.mem_map.mpr ⟨u, hu, rfl⟩)

theorem wf_width_sum {s : SepState} (hwf : wf s) :
    (s.units.map (fun u => u.qbs.length)).sum = s.nBits := by
  have h1 : (allGlobals s).length = s.nBits := by
    rw [hwf.1.length_eq, List.length_range]
  rw [allGlobals, List.length_flatten, List.map_map] at h1
  exact h1

end Qrack
namespace Qrack

theorem inv_of_qlookup {s : SepState} {g c i : Nat} (h : qlookup s g = some ⟨c, i⟩) :
    qubitInverseLookup s c i = some g := by
  rcases qlookup_sound h with ⟨u, hu, hgu, hi⟩
  rw [qubitInverseLookup, hu]
  simp only [Option.some_bind]
  rw [hi]
  exact posOf_getElem? hgu

theorem qlookup_of_inv {s : SepState} (hwf : wf s) {g c i : Nat}
    (h : qubitInverseLookup s c i = some g) : qlookup s g = some ⟨c, i⟩ := by
  rw [qubitInverseLookup] at h
  rcases Option.bind_eq_some.mp h with ⟨u, hu, hgi⟩
  have hmem : g ∈ u.qbs := by
    rcases List.getElem?_eq_some.mp hgi with ⟨hlt, hv⟩
    rw [← hv]
    exact List.getElem_mem hlt
  have humem : u ∈ s.units := by
    rcases List.getElem?_eq_some.mp hu with ⟨hlt, hv⟩
    rw [← hv]
    exact List.getElem_mem hlt
  rw [qlookup_complete (nodupAll s hwf) hu hmem]
  congr 1
  congr 1
  exact posOf_eq_of_getElem? (wf_unit_nodup hwf humem) hgi

theorem inv_isSome_iff {s : SepState} {c i : Nat} :
    (qubitInverseLookup s c i).isSome ↔
      ∃ u, s.units[c]? = some u ∧ i < u.qbs.length := by
  rw [qubitInverseLookup]
  cases hc : s.units[c]? with
  | none =>
    constructor
    · intro h
      rw [Option.none_bind] at h
      cases h
    · rintro ⟨u, hu, _⟩
      cases hu
  | some u =>
    simp only [Option.some_bind, Option.some.injEq]
    constructor
    · intro h
      rcases Option.isSome_iff_exists.mp h with ⟨g, hg⟩
      rcases List.getElem?_eq_some.mp hg with ⟨hlt, _⟩
      exact ⟨u, rfl, hlt⟩
    · rintro ⟨u2, hu2, hlt⟩
      cases hu2
      apply Option.isSome_iff_exists.mpr
      exact ⟨u.qbs[i], List.getElem?_eq_some.mpr ⟨hlt, rfl⟩⟩

theorem inv_entry_lt {s : SepState} (hwf : wf s) {c i g : Nat}
    (h : qubitInverseLookup s c i = some g) : g < s.nBits := by
  have := qlookup_of_inv hwf h
  have hs : (qlookup s g).isSome := by rw [this]; rfl
  exact (wf_isSome_iff hwf).mp hs

theorem count_filter_of_neg {a : Nat} {p : Nat → Bool} {l : List Nat} (h : p a = false) :
    List.count a (l.filter p) = 0 := by
  apply List.count_eq_zero.mpr
  intro hmem
  have := (List.mem_filter.mp hmem).2
  rw [h] at this
  cases this

theorem sum_map_split {α : Type} (l : List α) (f : α → Nat) (q : α → Bool) :
    (l.map f).sum = ((l.filter q).map f).sum + ((l.filter (fun a => ! q a)).map f).sum := by
  have hp := List.filter_append_perm q l
  have := (hp.map f).sum_eq
  rw [List.map_append, List.sum_append] at this
  omega

theorem sum_map_zero {α : Type} {l : List α} {f : α → Nat} (h : ∀ a ∈ l, f a = 0) :
    (l.map f).sum = 0 := by
  apply List.sum_eq_zero
  intro x hx
  rcases List.mem_map.mp hx with ⟨a, ha, hfa⟩
  rw [← hfa]
  exact h a ha

theorem filter_or_perm {α : Type} (l : List α) (q1 q2 : α → Bool)
    (hdisj : ∀ a ∈ l, ¬ (q1 a = true ∧ q2 a = true)) :
    (l.filter (fun a => q1 a || q2 a)).Perm (l.filter q1 ++ l.filter q2) := by
  induction l with
  | nil => simp
  | cons x xs ih =>
    have ihx := ih (fun a ha => hdisj a (List.mem_cons_of_mem x ha))
    have hx := hdisj x (List.mem_cons_self x xs)
    by_cases h1 : q1 x = true
    · have h2 : q2 x = false := by
        cases hq2 : q2 x with
        | true => exact absurd ⟨h1, hq2⟩ hx
        | false => rfl
      rw [List.filter_cons_of_pos (by simp [h1]), List.filter_cons_of_pos h1,
        List.filter_cons_of_neg (by simp [h2])]
      exact List.Perm.cons x ihx
    · have h1f : q1 x = false := by
        cases hq1 : q1 x with
        | true => exact absurd hq1 h1
        | false => rfl
      cases h2 : q2 x with
      | true =>
        rw [List.filter_cons_of_pos (by simp [h2]), List.filter_cons_of_neg (by simp [h1f]),
          List.filter_cons_of_pos h2]
        refine List.Perm.trans (List.Perm.cons x ihx) ?_
        exact List.perm_middle.symm
      | false =>
        rw [List.filter_cons_of_neg (by simp [h1f, h2]), List.filter_cons_of_neg (by simp [h1f]),
          List.filter_cons_of_neg (by simp [h2])]
        exact ihx

end Qrack
namespace Qrack

theorem bitstep (r p j : Nat) (hr : r < 2) : (r + 2 * p) >>> (j + 1) = p >>> j := by
  rw [Nat.shiftRight_eq_div_pow, Nat.shiftRight_eq_div_pow]
  rw [pow_succ, Nat.mul_comm (2 ^ j) 2, ← Nat.div_div_eq_div_mul]
  congr 1
  rw [Nat.mul_comm 2 p, Nat.add_mul_div_right r p (by norm_num)]
  rw [Nat.div_eq_of_lt hr]
  omega

theorem readBit_lt_two (s : SepState) (g : Nat) : readBit s g < 2 := by
  rw [readBit]
  cases qlookup s g with
  | none => exact Nat.zero_lt_two
  | some l => exact Nat.mod_lt _ (by norm_num)

theorem readBit_eq_zero {s : SepState} {g : Nat} (h : qlookup s g = none) : readBit s g = 0 := by
  rw [readBit, h]

theorem readBit_eq {s : SepState} {g c j : Nat} {u : CUnit} (h : qlookup s g = some ⟨c, j⟩)
    (hu : s.units[c]? = some u) : readBit s g = (u.val >>> j) % 2 := by
  rw [readBit, h]
  simp only [hu]

theorem packBits_bit {s : SepState} {g : Nat} : ∀ {l : List Nat}, g ∈ l →
    (packBits s l >>> posOf g l) % 2 = readBit s g := by
  intro l h
  induction l with
  | nil => cases h
  | cons x xs ih =>
    by_cases hx : x = g
    · subst hx
      have hpos : posOf x (x :: xs) = 0 := by simp [posOf]
      rw [hpos]
      show ((readBit s x + 2 * packBits s xs) >>> 0) % 2 = readBit s x
      rw [Nat.shiftRight_zero, Nat.add_mul_mod_self_left]
      exact Nat.mod_eq_of_lt (readBit_lt_two s x)
    · have hmem : g ∈ xs := by
        rcases List.mem_cons.mp h with h1 | h1
        · exact absurd h1.symm hx
        · exact h1
      have hpos : posOf g (x :: xs) = posOf g xs + 1 := by simp [posOf, hx]
      rw [hpos]
      show ((readBit s x + 2 * packBits s xs) >>> (posOf g xs + 1)) % 2 = readBit s g
      rw [bitstep _ _ _ (readBit_lt_two s x)]
      exact ih hmem

theorem flatten_filterMap_map {α β : Type} (f : α → Option β) (h : β → List Nat) :
    ∀ (l : List α),
    ((l.filterMap f).map h).flatten = (l.map (fun a => ((f a).map h).getD [])).flatten := by
  intro l
  induction l with
  | nil => rfl
  | cons a l ih =>
    cases hfa : f a with
    | none => simp [List.filterMap_cons, hfa, ih]
    | some b => simp [List.filterMap_cons, hfa, ih]

theorem filterMap_eq_map_of_some {α β : Type} {f : α → Option β} {h : α → β} :
    ∀ {l : List α}, (∀ a ∈ l, f a = some (h a)) → l.filterMap f = l.map h := by
  intro l
  induction l with
  | nil => intro _; rfl
  | cons a l ih =>
    intro hall
    rw [List.filterMap_cons, hall a (List.mem_cons_self a l),
      ih (fun x hx => hall x (List.mem_cons_of_mem a hx)), List.map_cons]

theorem withIdx_filter_mem_perm (us : List CUnit) (F : Nat × CUnit → Nat) :
    ∀ (cs : List Nat), cs.Nodup →
    (((withIdx 0 us).filter (fun p => p.1 ∈ cs)).map F).Perm
      (cs.filterMap (fun c => (us[c]?).map (fun u => F (c, u)))) := by
  intro cs
  induction cs with
  | nil => simp
  | cons c cs2 ih =>
    intro hnd
    have hc2 : c ∉ cs2 := (List.nodup_cons.mp hnd).1
    have hperm : ((withIdx 0 us).filter (fun p => p.1 ∈ c :: cs2)).Perm
        ((withIdx 0 us).filter (fun p => p.1 = c) ++ (withIdx 0 us).filter (fun p => p.1 ∈ cs2)) := by
      have hcongr : (withIdx 0 us).filter (fun p => p.1 ∈ c :: cs2)
          = (withIdx 0 us).filter (fun p => decide (p.1 = c) || decide (p.1 ∈ cs2)) := by
        apply List.filter_congr
        intro p _
        simp [List.mem_cons]
      rw [hcongr]
      apply filter_or_perm
      intro p _ hboth
      rcases hboth with ⟨h1, h2⟩
      simp at h1 h2
      exact hc2 (h1 ▸ h2)
    refine List.Perm.trans (List.Perm.map F hperm) ?_
    rw [List.map_append, List.filterMap_cons]
    cases hc : us[c]? with
    | none =>
      have hnil : (withIdx 0 us).filter (fun p => p.1 = c) = [] := by
        apply List.filter_eq_nil_iff.mpr
        intro p hp
        rcases mem_withIdx.mp hp with ⟨j, hpj, hget⟩
        simp only [decide_eq_true_eq]
        intro hpc
        rw [hpc] at hpj
        rw [Nat.zero_add] at hpj
        rw [hpj] at hc
        rw [hc] at hget
        cases hget
      rw [hnil]
      simp only [List.map_nil, List.nil_append]
      exact ih (List.nodup_cons.mp hnd).2
    | some u =>
      have := withIdx_filter_eq_idx us 0 c u hc
      rw [Nat.zero_add] at this
      rw [this]
      simp only [List.map_cons, List.map_nil, List.cons_append, List.nil_append]
      exact List.Perm.cons _ (ih (List.nodup_cons.mp hnd).2)

end Qrack
namespace Qrack

theorem memOfGet {α : Type} {l : List α} {n : Nat} {a : α} (h : l[n]? = some a) : a ∈ l := by
  rcases List.getElem?_eq_some.mp h with ⟨hlt, hv⟩
  rw [← hv]
  exact List.getElem_mem hlt

theorem unitQbs_eq_some {s : SepState} {c : Nat} {u : CUnit} (h : s.units[c]? = some u) :
    unitQbs s c = u.qbs := by
  rw [unitQbs, h]
  rfl

theorem unitQbs_eq_nil {s : SepState} {c : Nat} (h : s.units[c]? = none) :
    unitQbs s c = [] := by
  rw [unitQbs, h]
  rfl

theorem cuOf_spec {s : SepState} {g : Nat} (h : (qlookup s g).isSome) :
    ∃ u, s.units[cuOf s g]? = some u ∧ g ∈ u.qbs ∧
      qlookup s g = some ⟨cuOf s g, posOf g u.qbs⟩ := by
  rcases Option.isSome_iff_exists.mp h with ⟨l, hl⟩
  cases l with
  | mk c j =>
    rcases qlookup_sound hl with ⟨u, hu, hgu, hj⟩
    have hcu : cuOf s g = c := by rw [cuOf, hl]; rfl
    rw [hcu]
    refine ⟨u, hu, hgu, ?_⟩
    rw [hl, hj]

theorem unitQbs_nodup {s : SepState} (hwf : wf s) (c : Nat) : (unitQbs s c).Nodup := by
  cases hc : s.units[c]? with
  | none => rw [unitQbs_eq_nil hc]; exact List.nodup_nil
  | some u => rw [unitQbs_eq_some hc]; exact wf_unit_nodup hwf (memOfGet hc)

theorem unitQbs_disjoint {s : SepState} (hwf : wf s) {c1 c2 : Nat} (hne : c1 ≠ c2) :
    (unitQbs s c1).Disjoint (unitQbs s c2) := by
  intro a ha1 ha2
  cases h1 : s.units[c1]? with
  | none => rw [unitQbs_eq_nil h1] at ha1; cases ha1
  | some u1 =>
    cases h2 : s.units[c2]? with
    | none => rw [unitQbs_eq_nil h2] at ha2; cases ha2
    | some u2 =>
      rw [unitQbs_eq_some h1] at ha1
      rw [unitQbs_eq_some h2] at ha2
      have e1 := qlookup_complete (nodupAll s hwf) h1 ha1
      have e2 := qlookup_complete (nodupAll s hwf) h2 ha2
      rw [e1] at e2
      have : c1 = c2 := congrArg QbLookup.cu (Option.some.inj e2)
      exact hne this

theorem ec_pool_nodup {s : SepState} (hwf : wf s) {d : Nat} {rest : List Nat}
    (hnd2 : (d :: rest).Nodup) : (ecPool s d rest).Nodup := by
  rw [ecPool]
  apply List.nodup_flatten.mpr
  constructor
  · intro l hl
    rcases List.mem_map.mp hl with ⟨c, _, hcl⟩
    rw [← hcl]
    exact unitQbs_nodup hwf c
  · apply List.pairwise_map.mpr
    exact List.Pairwise.imp (fun hab => unitQbs_disjoint hwf hab) hnd2

theorem ec_gs_sub_pool {s : SepState} {gs : List Nat} {d : Nat} {rest : List Nat}
    (hlive : ∀ g ∈ gs, (qlookup s g).isSome)
    (hcus : dedupF (gs.map (cuOf s)) = d :: rest) :
    ∀ g ∈ gs, g ∈ ecPool s d rest := by
  intro g hg
  rcases cuOf_spec (hlive g hg) with ⟨u, hu, hgu, _⟩
  rw [ecPool]
  apply List.mem_flatten.mpr
  refine ⟨unitQbs s (cuOf s g), List.mem_map.mpr ⟨cuOf s g, ?_, rfl⟩, ?_⟩
  · rw [← hcus]
    exact mem_dedupF.mpr (List.mem_map.mpr ⟨g, hg, rfl⟩)
  · rw [unitQbs_eq_some hu]
    exact hgu

theorem ecQbs_perm_pool {s : SepState} {gs : List Nat} {d : Nat} {rest : List Nat}
    (hwf : wf s) (hnd : gs.Nodup) (hlive : ∀ g ∈ gs, (qlookup s g).isSome)
    (hcus : dedupF (gs.map (cuOf s)) = d :: rest) :
    (ecQbs s gs d rest).Perm (ecPool s d rest) := by
  have hpn := ec_pool_nodup hwf (hcus ▸ nodup_dedupF (gs.map (cuOf s)))
  have hsub := ec_gs_sub_pool hlive hcus
  apply List.perm_iff_count.mpr
  intro x
  rw [ecQbs, List.count_append]
  by_cases hx : x ∈ gs
  · rw [List.count_eq_one_of_mem hnd hx, count_filter_of_neg (by simp [hx]),
      List.count_eq_one_of_mem hpn (hsub x hx)]
  · rw [List.count_eq_zero.mpr hx, List.count_filter (by simp [hx])]
    omega

theorem ec_d_valid {s : SepState} {gs : List Nat} {d : Nat} {rest : List Nat}
    (hlive : ∀ g ∈ gs, (qlookup s g).isSome)
    (hcus : dedupF (gs.map (cuOf s)) = d :: rest) :
    ∃ u, s.units[d]? = some u := by
  have hd : d ∈ dedupF (gs.map (cuOf s)) := by
    rw [hcus]
    exact List.mem_cons_self d rest
  rcases List.mem_map.mp (mem_dedupF.mp hd) with ⟨g, hg, hcg⟩
  rcases cuOf_spec (hlive g hg) with ⟨u, hu, _, _⟩
  rw [← hcg]
  exact ⟨u, hu⟩

theorem sum_filterMap_unitQbs (s : SepState) (x : Nat) : ∀ (cs : List Nat),
    (cs.filterMap (fun c => (s.units[c]?).map (fun u => List.count x u.qbs))).sum
      = (cs.map (fun c => List.count x (unitQbs s c))).sum := by
  intro cs
  induction cs with
  | nil => rfl
  | cons c cs ih =>
    rw [List.filterMap_cons, List.map_cons]
    cases hc : s.units[c]? with
    | none =>
      rw [unitQbs_eq_nil hc]
      simp [ih]
    | some u =>
      rw [unitQbs_eq_some hc]
      simp [List.sum_cons, ih]

theorem ec_globals_eq (s : SepState) (gs : List Nat) (d : Nat) (rest : List Nat) :
    allGlobals (entangleCore s gs d rest) =
      ((withIdx 0 s.units).map (ecPsi s gs d rest)).flatten := by
  rw [allGlobals]
  show (((withIdx 0 s.units).filterMap (fun p =>
      if p.1 = d then some (ecMerged s gs d rest) else if p.1 ∈ rest then none
      else some p.2)).map CUnit.qbs).flatten = _
  rw [flatten_filterMap_map]
  congr 1
  apply List.map_congr_left
  intro p _
  by_cases h1 : p.1 = d
  · simp [h1, ecMerged, ecPsi]
  · by_cases h2 : p.1 ∈ rest
    · simp [h1, h2, ecPsi]
    · simp [h1, h2, ecPsi]

end Qrack
namespace Qrack

theorem ec_globals_perm {s : SepState} {gs : List Nat} {d : Nat} {rest : List Nat}
    (hwf : wf s) (hnd : gs.Nodup) (hlive : ∀ g ∈ gs, (qlookup s g).isSome)
    (hcus : dedupF (gs.map (cuOf s)) = d :: rest) :
    (allGlobals (entangleCore s gs d rest)).Perm (allGlobals s) := by
  have hcnd : (d :: rest).Nodup := hcus ▸ nodup_dedupF (gs.map (cuOf s))
  have hdrest : d ∉ rest := (List.nodup_cons.mp hcnd).1
  have hqp := ecQbs_perm_pool hwf hnd hlive hcus
  rcases ec_d_valid hlive hcus with ⟨ud, hud⟩
  apply List.perm_iff_count.mpr
  intro x
  have hL : List.count x (allGlobals (entangleCore s gs d rest))
      = ((withIdx 0 s.units).map (fun p => List.count x (ecPsi s gs d rest p))).sum := by
    rw [ec_globals_eq s gs d rest, List.count_flatten, List.map_map]
    rfl
  have hR : List.count x (allGlobals s)
      = ((withIdx 0 s.units).map (fun p : Nat × CUnit => List.count x p.2.qbs)).sum := by
    rw [allGlobals, List.count_flatten, List.map_map]
    conv_lhs => rw [← withIdx_map_snd s.units 0, List.map_map]
    rfl
  have hpoolc : List.count x (ecPool s d rest)
      = ((d :: rest).map (fun c => List.count x (unitQbs s c))).sum := by
    rw [ecPool, List.count_flatten, List.map_map]
    rfl
  have hin1 : (((withIdx 0 s.units).filter (fun p => decide (p.1 ∈ d :: rest))).map
        (fun p => List.count x (ecPsi s gs d rest p))).sum
      = List.count x (ecPool s d rest) := by
    have hperm := withIdx_filter_mem_perm s.units
      (fun p => List.count x (ecPsi s gs d rest p)) (d :: rest) hcnd
    rw [hperm.sum_eq, List.filterMap_cons, hud]
    simp only [Option.map_some']
    rw [List.sum_cons]
    have hhead : List.count x (ecPsi s gs d rest (d, ud)) = List.count x (ecQbs s gs d rest) := by
      simp [ecPsi]
    have htail : ((rest.filterMap (fun c =>
        (s.units[c]?).map (fun u => List.count x (ecPsi s gs d rest (c, u))))).sum) = 0 := by
      apply List.sum_eq_zero
      intro y hy
      rcases List.mem_filterMap.mp hy with ⟨c, hc, hcy⟩
      rcases Option.map_eq_some'.mp hcy with ⟨u, _, huy⟩
      rw [← huy]
      have hcd : ¬ c = d := fun h => hdrest (h ▸ hc)
      simp [ecPsi, hcd, hc]
    rw [hhead, htail, hqp.count_eq x]
    omega
  have hin2 : (((withIdx 0 s.units).filter (fun p => decide (p.1 ∈ d :: rest))).map
        (fun p : Nat × CUnit => List.count x p.2.qbs)).sum
      = List.count x (ecPool s d rest) := by
    have hperm := withIdx_filter_mem_perm s.units
      (fun p : Nat × CUnit => List.count x p.2.qbs) (d :: rest) hcnd
    rw [hperm.sum_eq]
    have hfe : ((d :: rest).filterMap (fun c =>
          (s.units[c]?).map (fun u => List.count x ((c, u).2.qbs)))).sum
        = ((d :: rest).filterMap (fun c =>
          (s.units[c]?).map (fun u => List.count x u.qbs))).sum := rfl
    rw [hfe, sum_filterMap_unitQbs s x (d :: rest), hpoolc]
  rw [hL, hR,
    sum_map_split (withIdx 0 s.units) (fun p => List.count x (ecPsi s gs d rest p))
      (fun p => decide (p.1 ∈ d :: rest)),
    sum_map_split (withIdx 0 s.units) (fun p : Nat × CUnit => List.count x p.2.qbs)
      (fun p => decide (p.1 ∈ d :: rest))]
  have hout : ((withIdx 0 s.units).filter (fun p => ! decide (p.1 ∈ d :: rest))).map
        (fun p => List.count x (ecPsi s gs d rest p))
      = ((withIdx 0 s.units).filter (fun p => ! decide (p.1 ∈ d :: rest))).map
        (fun p : Nat × CUnit => List.count x p.2.qbs) := by
    apply List.map_congr_left
    intro p hp
    have hq := (List.mem_filter.mp hp).2
    simp only [Bool.not_eq_true', decide_eq_false_iff_not, List.mem_cons] at hq
    push_neg at hq
    simp [ecPsi, hq.1, hq.2]
  rw [hout, hin1, hin2]

end Qrack
namespace Qrack

theorem ec_gs_ne_nil {s : SepState} {gs : List Nat} {d : Nat} {rest : List Nat}
    (hcus : dedupF (gs.map (cuOf s)) = d :: rest) : gs ≠ [] := by
  intro h
  subst h
  simp [dedupF] at hcus

theorem ec_wf {s : SepState} {gs : List Nat} {d : Nat} {rest : List Nat}
    (hwf : wf s) (hnd : gs.Nodup) (hlive : ∀ g ∈ gs, (qlookup s g).isSome)
    (hcus : dedupF (gs.map (cuOf s)) = d :: rest) : wf (entangleCore s gs d rest) := by
  constructor
  · exact (ec_globals_perm hwf hnd hlive hcus).trans hwf.1
  · intro u hu
    rcases List.mem_filterMap.mp hu with ⟨p, hp, hpu⟩
    by_cases h1 : p.1 = d
    · rw [if_pos h1] at hpu
      have hu2 : u = ecMerged s gs d rest := (Option.some.inj hpu).symm
      rw [hu2]
      show ecQbs s gs d rest ≠ []
      rw [ecQbs]
      intro hcontra
      rcases List.append_eq_nil.mp hcontra with ⟨hgs, _⟩
      exact ec_gs_ne_nil hcus hgs
    · rw [if_neg h1] at hpu
      by_cases h2 : p.1 ∈ rest
      · rw [if_pos h2] at hpu
        cases hpu
      · rw [if_neg h2] at hpu
        have hu2 : u = p.2 := (Option.some.inj hpu).symm
        rcases mem_withIdx.mp hp with ⟨j, _, hget⟩
        rw [hu2]
        exact hwf.2 p.2 (memOfGet hget)

theorem ec_merged_mem {s : SepState} {gs : List Nat} {d : Nat} {rest : List Nat}
    (hlive : ∀ g ∈ gs, (qlookup s g).isSome)
    (hcus : dedupF (gs.map (cuOf s)) = d :: rest) :
    ecMerged s gs d rest ∈ (entangleCore s gs d rest).units := by
  rcases ec_d_valid hlive hcus with ⟨ud, hud⟩
  apply List.mem_filterMap.mpr
  refine ⟨(d, ud), mem_withIdx.mpr ⟨d, by simp, hud⟩, by simp⟩

theorem ec_qlookup_req {s : SepState} {gs : List Nat} {d : Nat} {rest : List Nat}
    (hwf : wf s) (hnd : gs.Nodup) (hlive : ∀ g ∈ gs, (qlookup s g).isSome)
    (hcus : dedupF (gs.map (cuOf s)) = d :: rest) :
    ∃ D, (entangleCore s gs d rest).units[D]? = some (ecMerged s gs d rest) ∧
      ∀ i g, gs[i]? = some g →
        qlookup (entangleCore s gs d rest) g = some ⟨D, i⟩ := by
  have hwf2 := ec_wf hwf hnd hlive hcus
  have hmem := ec_merged_mem hlive hcus
  rcases List.mem_iff_getElem?.mp hmem with ⟨D, hD⟩
  refine ⟨D, hD, ?_⟩
  intro i g hig
  have hlt : i < gs.length := (List.getElem?_eq_some.mp hig).1
  have hgmem : g ∈ ecQbs s gs d rest := by
    rw [ecQbs]
    exact List.mem_append_left _ (memOfGet hig)
  have hql := qlookup_complete (nodupAll _ hwf2) hD hgmem
  have hnodup : (ecQbs s gs d rest).Nodup := wf_unit_nodup hwf2 hmem
  have hgsi : (ecQbs s gs d rest)[i]? = some g := by
    rw [ecQbs, List.getElem?_append_left hlt]
    exact hig
  have hpos : posOf g (ecQbs s gs d rest) = i := posOf_eq_of_getElem? hnodup hgsi
  have hql2 : qlookup (entangleCore s gs d rest) g
      = some ⟨D, posOf g (ecQbs s gs d rest)⟩ := hql
  rw [hql2, hpos]

theorem ec_readBit {s : SepState} {gs : List Nat} {d : Nat} {rest : List Nat}
    (hwf : wf s) (hnd : gs.Nodup) (hlive : ∀ g ∈ gs, (qlookup s g).isSome)
    (hcus : dedupF (gs.map (cuOf s)) = d :: rest) (g : Nat) :
    readBit (entangleCore s gs d rest) g = readBit s g := by
  have hwf2 := ec_wf hwf hnd hlive hcus
  have hperm := ec_globals_perm hwf hnd hlive hcus
  cases hq : qlookup s g with
  | none =>
    have hn2 : qlookup (entangleCore s gs d rest) g = none := by
      rw [qlookup_eq_none_iff] at hq ⊢
      intro hmem
      exact hq (hperm.mem_iff.mp hmem)
    rw [readBit_eq_zero hq, readBit_eq_zero hn2]
  | some l =>
    cases l with
    | mk c j =>
      rcases qlookup_sound hq with ⟨u, hu, hgu, hj⟩
      by_cases hmem : g ∈ ecQbs s gs d rest
      · rcases List.mem_iff_getElem?.mp (ec_merged_mem hlive hcus) with ⟨D, hD⟩
        have hql : qlookup (entangleCore s gs d rest) g
            = some ⟨D, posOf g (ecQbs s gs d rest)⟩ :=
          qlookup_complete (nodupAll _ hwf2) hD hmem
        have hrb : readBit (entangleCore s gs d rest) g
            = ((ecMerged s gs d rest).val >>> posOf g (ecQbs s gs d rest)) % 2 :=
          readBit_eq hql hD
        rw [hrb]
        exact packBits_bit hmem
      · have hcd : ¬ (c = d ∨ c ∈ rest) := by
          intro hc
          apply hmem
          have hpool : g ∈ ecPool s d rest := by
            rw [ecPool]
            apply List.mem_flatten.mpr
            refine ⟨unitQbs s c, List.mem_map.mpr ⟨c, ?_, rfl⟩, ?_⟩
            · rcases hc with h | h
              · rw [h]
                exact List.mem_cons_self _ _
              · exact List.mem_cons_of_mem _ h
            · rw [unitQbs_eq_some hu]
              exact hgu
          rw [ecQbs]
          by_cases hgs : g ∈ gs
          · exact List.mem_append_left _ hgs
          · exact List.mem_append_right _ (List.mem_filter.mpr ⟨hpool, by simp [hgs]⟩)
        push_neg at hcd
        have humem : u ∈ (entangleCore s gs d rest).units := by
          apply List.mem_filterMap.mpr
          refine ⟨(c, u), mem_withIdx.mpr ⟨c, by simp, hu⟩, ?_⟩
          simp [hcd.1, hcd.2]
        rcases List.mem_iff_getElem?.mp humem with ⟨c2, hc2⟩
        have hql2 : qlookup (entangleCore s gs d rest) g = some ⟨c2, posOf g u.qbs⟩ :=
          qlookup_complete (nodupAll _ hwf2) hc2 hgu
        rw [readBit_eq hq hu, readBit_eq hql2 hc2, hj]

theorem withIdx_length : ∀ (us : List CUnit) (k : Nat), (withIdx k us).length = us.length := by
  intro us
  induction us with
  | nil => intro k; rfl
  | cons u us ih => intro k; simp [withIdx, ih (k + 1)]

theorem ec_units_norest (s : SepState) (gs : List Nat) (d : Nat) :
    (entangleCore s gs d []).units
      = (withIdx 0 s.units).map (fun p => if p.1 = d then ecMerged s gs d [] else p.2) := by
  show (withIdx 0 s.units).filterMap _ = _
  apply filterMap_eq_map_of_some
  intro p _
  by_cases h1 : p.1 = d
  · simp [h1]
  · simp [h1]

theorem ec_length_norest (s : SepState) (gs : List Nat) (d : Nat) :
    (entangleCore s gs d []).units.length = s.units.length := by
  rw [ec_units_norest, List.length_map, withIdx_length]

theorem ec_getElem_norest (s : SepState) (gs : List Nat) (d : Nat) (c : Nat) :
    (entangleCore s gs d []).units[c]?
      = (s.units[c]?).map (fun u => if c = d then ecMerged s gs d [] else u) := by
  rw [ec_units_norest, List.getElem?_map, withIdx_getElem?]
  cases s.units[c]? with
  | none => rfl
  | some u => simp

end Qrack
namespace Qrack

theorem liveGs_nodup (s : SepState) (raw : List Nat) : (liveGs s raw).Nodup :=
  List.Nodup.filter _ (nodup_dedupF raw)

theorem liveGs_live (s : SepState) (raw : List Nat) :
    ∀ g ∈ liveGs s raw, (qlookup s g).isSome := by
  intro g hg
  have := (List.mem_filter.mp hg).2
  simpa using this

theorem liveGs_eq_self {s : SepState} {raw : List Nat} (hnd : raw.Nodup)
    (hlive : ∀ g ∈ raw, (qlookup s g).isSome) : liveGs s raw = raw := by
  rw [liveGs, dedupF_eq_self hnd]
  apply List.filter_eq_self.mpr
  intro g hg
  simpa using hlive g hg

theorem eg_eq_core {s : SepState} {raw : List Nat} {d : Nat} {rest : List Nat}
    (h : dedupF ((liveGs s raw).map (cuOf s)) = d :: rest) :
    entangleGlobals s raw = entangleCore s (liveGs s raw) d rest := by
  rw [entangleGlobals, h]
  rfl

theorem eg_eq_self {s : SepState} {raw : List Nat}
    (h : dedupF ((liveGs s raw).map (cuOf s)) = []) :
    entangleGlobals s raw = s := by
  rw [entangleGlobals, h]
  rfl

theorem eg_wf {s : SepState} (hwf : wf s) (raw : List Nat) :
    wf (entangleGlobals s raw) := by
  cases h : dedupF ((liveGs s raw).map (cuOf s)) with
  | nil => rw [eg_eq_self h]; exact hwf
  | cons d rest =>
    rw [eg_eq_core h]
    exact ec_wf hwf (liveGs_nodup s raw) (liveGs_live s raw) h

theorem eg_nBits (s : SepState) (raw : List Nat) :
    (entangleGlobals s raw).nBits = s.nBits := by
  cases h : dedupF ((liveGs s raw).map (cuOf s)) with
  | nil => rw [eg_eq_self h]
  | cons d rest => rw [eg_eq_core h]; rfl

theorem eg_readBit {s : SepState} (hwf : wf s) (raw : List Nat) (g : Nat) :
    readBit (entangleGlobals s raw) g = readBit s g := by
  cases h : dedupF ((liveGs s raw).map (cuOf s)) with
  | nil => rw [eg_eq_self h]
  | cons d rest =>
    rw [eg_eq_core h]
    exact ec_readBit hwf (liveGs_nodup s raw) (liveGs_live s raw) h g

theorem eg_globals_perm {s : SepState} (hwf : wf s) (raw : List Nat) :
    (allGlobals (entangleGlobals s raw)).Perm (allGlobals s) := by
  cases h : dedupF ((liveGs s raw).map (cuOf s)) with
  | nil => rw [eg_eq_self h]
  | cons d rest =>
    rw [eg_eq_core h]
    exact ec_globals_perm hwf (liveGs_nodup s raw) (liveGs_live s raw) h

theorem eg_req {s : SepState} {raw : List Nat} (hwf : wf s) (hnd : raw.Nodup)
    (hlive : ∀ g ∈ raw, (qlookup s g).isSome) (hne : raw ≠ []) :
    ∃ D, ∀ i g, raw[i]? = some g →
      qlookup (entangleGlobals s raw) g = some ⟨D, i⟩ := by
  have hself := liveGs_eq_self hnd hlive
  cases h : dedupF ((liveGs s raw).map (cuOf s)) with
  | nil =>
    rw [hself] at h
    rw [dedupF_eq_nil] at h
    rcases List.map_eq_nil_iff.mp h with h2
    exact absurd h2 hne
  | cons d rest =>
    rw [eg_eq_core h]
    rw [hself] at h
    rcases ec_qlookup_req hwf hnd hlive h with ⟨D, _, hD⟩
    refine ⟨D, ?_⟩
    intro i g hig
    have := hD i g hig
    rw [hself]
    exact this

theorem set_self {α : Type} : ∀ (l : List α) (n : Nat) (a : α), l[n]? = some a → l.set n a = l := by
  intro l
  induction l with
  | nil => intro n a h; simp at h
  | cons x xs ih =>
    intro n a h
    cases n with
    | zero =>
      simp at h
      rw [List.set_cons_zero, h]
    | succ m =>
      rw [List.getElem?_cons_succ] at h
      rw [List.set_cons_succ, ih m a h]

theorem Xgate_eq_none {s : SepState} {q : Nat} (hq : qlookup s q = none) : Xgate s q = s := by
  simp [Xgate, hq]

theorem Xgate_eq_nounit {s : SepState} {q : Nat} {l : QbLookup} (hq : qlookup s q = some l)
    (hu : s.units[l.cu]? = none) : Xgate s q = s := by
  simp [Xgate, hq, hu]

theorem Xgate_eq_set {s : SepState} {q : Nat} {l : QbLookup} {u : CUnit}
    (hq : qlookup s q = some l) (hu : s.units[l.cu]? = some u) :
    Xgate s q = { s with units := s.units.set l.cu ⟨u.qbs, Nat.xor u.val (2 ^ l.qb)⟩ } := by
  simp [Xgate, hq, hu]

theorem Xgate_units_qbs (s : SepState) (q : Nat) :
    (Xgate s q).units.map CUnit.qbs = s.units.map CUnit.qbs := by
  cases hq : qlookup s q with
  | none => rw [Xgate_eq_none hq]
  | some l =>
    cases hu : s.units[l.cu]? with
    | none => rw [Xgate_eq_nounit hq hu]
    | some u =>
      rw [Xgate_eq_set hq hu]
      show (s.units.set l.cu ⟨u.qbs, Nat.xor u.val (2 ^ l.qb)⟩).map CUnit.qbs = _
      rw [List.map_set]
      have hget : (s.units.map CUnit.qbs)[l.cu]? = some u.qbs := by
        rw [List.getElem?_map, hu]
        rfl
      show (s.units.map CUnit.qbs).set l.cu u.qbs = _
      exact set_self _ _ _ hget

end Qrack
namespace Qrack

theorem Xgate_nBits (s : SepState) (q : Nat) : (Xgate s q).nBits = s.nBits := by
  cases hq : qlookup s q with
  | none => rw [Xgate_eq_none hq]
  | some l =>
    cases hu : s.units[l.cu]? with
    | none => rw [Xgate_eq_nounit hq hu]
    | some u => rw [Xgate_eq_set hq hu]

theorem Xgate_allGlobals (s : SepState) (q : Nat) : allGlobals (Xgate s q) = allGlobals s := by
  rw [allGlobals, allGlobals, Xgate_units_qbs]

theorem Xgate_wf {s : SepState} (hwf : wf s) (q : Nat) : wf (Xgate s q) := by
  constructor
  · rw [Xgate_allGlobals, Xgate_nBits]
    exact hwf.1
  · intro u hu
    cases hq : qlookup s q with
    | none =>
      rw [Xgate_eq_none hq] at hu
      exact hwf.2 u hu
    | some l =>
      cases hul : s.units[l.cu]? with
      | none =>
        rw [Xgate_eq_nounit hq hul] at hu
        exact hwf.2 u hu
      | some u0 =>
        rw [Xgate_eq_set hq hul] at hu
        rcases List.mem_or_eq_of_mem_set hu with h | h
        · exact hwf.2 u h
        · rw [h]
          show u0.qbs ≠ []
          exact hwf.2 u0 (memOfGet hul)

theorem foldX_wf {f : Nat → Nat} : ∀ (l : List Nat) (t : SepState), wf t →
    wf (l.foldl (fun st i => Xgate st (f i)) t) := by
  intro l
  induction l with
  | nil => intro t h; exact h
  | cons a l ih =>
    intro t h
    exact ih (Xgate t (f a)) (Xgate_wf h (f a))

theorem foldX_nBits {f : Nat → Nat} : ∀ (l : List Nat) (t : SepState),
    (l.foldl (fun st i => Xgate st (f i)) t).nBits = t.nBits := by
  intro l
  induction l with
  | nil => intro t; rfl
  | cons a l ih =>
    intro t
    rw [List.foldl_cons, ih, Xgate_nBits]

theorem EBL_wf {s : SepState} (hwf : wf s) (l : List QbListEntry) :
    wf (EntangleBitList s l) :=
  eg_wf hwf _

theorem EBL_nBits (s : SepState) (l : List QbListEntry) :
    (EntangleBitList s l).nBits = s.nBits :=
  eg_nBits s _

theorem EBL_readBit {s : SepState} (hwf : wf s) (l : List QbListEntry) (g : Nat) :
    readBit (EntangleBitList s l) g = readBit s g :=
  eg_readBit hwf _ g

theorem XRange_wf {s : SepState} (hwf : wf s) (a len : Nat) : wf (XRange s a len) :=
  foldX_wf _ _ (EBL_wf hwf _)

theorem XRange_nBits (s : SepState) (a len : Nat) : (XRange s a len).nBits = s.nBits := by
  rw [XRange]
  rw [foldX_nBits, EBL_nBits]

theorem MReg_wf {s : SepState} (hwf : wf s) (a len : Nat) : wf (MReg s a len).2 :=
  EBL_wf hwf _

theorem MReg_nBits (s : SepState) (a len : Nat) : (MReg s a len).2.nBits = s.nBits :=
  EBL_nBits s _

theorem EntangleIndices_wf {s : SepState} (hwf : wf s) (idxs : List Nat) :
    wf (EntangleIndices s idxs) :=
  eg_wf hwf idxs

theorem CCNOT_wf {s : SepState} (hwf : wf s) (a b c : Nat) : wf (CCNOT s a b c) := by
  rw [CCNOT]
  by_cases h : readBit (EntangleIndices s [a, b, c]) a = 1 ∧ readBit (EntangleIndices s [a, b, c]) b = 1
  · rw [if_pos h]
    exact Xgate_wf (EntangleIndices_wf hwf _) c
  · rw [if_neg h]
    exact EntangleIndices_wf hwf _

theorem CCNOT_nBits (s : SepState) (a b c : Nat) : (CCNOT s a b c).nBits = s.nBits := by
  rw [CCNOT]
  by_cases h : readBit (EntangleIndices s [a, b, c]) a = 1 ∧ readBit (EntangleIndices s [a, b, c]) b = 1
  · rw [if_pos h, Xgate_nBits]
    exact eg_nBits s _
  · rw [if_neg h]
    exact eg_nBits s _

theorem SwapG_wf {s : SepState} (hwf : wf s) (a b : Nat) : wf (SwapG s a b) := by
  rw [SwapG]
  by_cases h : readBit (EntangleIndices s [a, b]) a = readBit (EntangleIndices s [a, b]) b
  · rw [if_pos h]
    exact EntangleIndices_wf hwf _
  · rw [if_neg h]
    exact Xgate_wf (Xgate_wf (EntangleIndices_wf hwf _) a) b

theorem SwapG_nBits (s : SepState) (a b : Nat) : (SwapG s a b).nBits = s.nBits := by
  rw [SwapG]
  by_cases h : readBit (EntangleIndices s [a, b]) a = readBit (EntangleIndices s [a, b]) b
  · rw [if_pos h]
    exact eg_nBits s _
  · rw [if_neg h, Xgate_nBits, Xgate_nBits]
    exact eg_nBits s _

theorem flatten_map_singleton : ∀ (l : List Nat), (l.map (fun g => [g])).flatten = l := by
  intro l
  induction l with
  | nil => rfl
  | cons x xs ih => simp [ih]

theorem initSU_allGlobals (q v : Nat) : allGlobals (initSU q v) = List.range (q % 256) := by
  rw [allGlobals, initSU]
  show (((List.range (q % 256)).map _).map CUnit.qbs).flatten = _
  rw [List.map_map]
  have : (CUnit.qbs ∘ fun g => (⟨[g], ((v % 2 ^ 64) >>> g) % 2⟩ : CUnit)) = fun g => [g] := rfl
  rw [this, flatten_map_singleton]

theorem initSU_wf (q v : Nat) : wf (initSU q v) := by
  constructor
  · rw [initSU_allGlobals]
    exact List.Perm.refl _
  · intro u hu
    rw [initSU] at hu
    rcases List.mem_map.mp hu with ⟨g, _, hgu⟩
    rw [← hgu]
    intro h
    cases h

end Qrack
namespace Qrack

theorem Cohere_nBits (s t : SepState) : (Cohere s t).nBits = s.nBits + t.nBits := rfl

theorem Cohere_allGlobals (s t : SepState) :
    allGlobals (Cohere s t) = allGlobals s ++ (allGlobals t).map (fun g => g + s.nBits) := by
  show ((s.units ++ t.units.map
      (fun u => (⟨u.qbs.map (fun g => g + s.nBits), u.val⟩ : CUnit))).map
      CUnit.qbs).flatten = _
  rw [List.map_append, List.flatten_append]
  congr 1
  rw [allGlobals, List.map_flatten, List.map_map, List.map_map]
  rfl

theorem Cohere_wf {s t : SepState} (hs : wf s) (ht : wf t) : wf (Cohere s t) := by
  constructor
  · rw [Cohere_allGlobals]
    show (allGlobals s ++ (allGlobals t).map (fun g => g + s.nBits)).Perm
        (List.range (s.nBits + t.nBits))
    rw [List.range_add]
    refine List.Perm.append hs.1 ?_
    have h1 : ((allGlobals t).map (fun g => g + s.nBits)).Perm
        ((List.range t.nBits).map (fun g => g + s.nBits)) := ht.1.map _
    have h2 : (List.range t.nBits).map (fun g => g + s.nBits)
        = (List.range t.nBits).map (fun x => s.nBits + x) :=
      List.map_congr_left (fun a _ => Nat.add_comm a s.nBits)
    exact h2 ▸ h1
  · intro u hu
    rcases List.mem_append.mp hu with h | h
    · exact hs.2 u h
    · rcases List.mem_map.mp h with ⟨u0, hu0, huu⟩
      rw [← huu]
      show u0.qbs.map (fun g => g + s.nBits) ≠ []
      intro hc
      exact ht.2 u0 hu0 (List.map_eq_nil_iff.mp hc)

theorem qlookupAux_append_some {g : Nat} : ∀ {us : List CUnit} (vs : List CUnit) {l : QbLookup},
    qlookupAux g 0 us = some l → qlookupAux g 0 (us ++ vs) = some l := by
  intro us
  induction us with
  | nil => intro vs l h; simp [qlookupAux] at h
  | cons u us ih =>
    intro vs l h
    by_cases hg : g ∈ u.qbs
    · simp only [qlookupAux, if_pos hg] at h
      simp only [List.cons_append, qlookupAux, if_pos hg, List.append_eq]
      exact h
    · simp only [qlookupAux, if_neg hg] at h
      simp only [List.cons_append, qlookupAux, if_neg hg, List.append_eq]
      rw [qlookupAux_shift] at h ⊢
      rcases Option.map_eq_some'.mp h with ⟨l0, hl0, hll⟩
      rw [ih vs hl0, Option.map_some', hll]

theorem qlookupAux_append_none {g : Nat} : ∀ {us : List CUnit} (vs : List CUnit),
    qlookupAux g 0 us = none →
    qlookupAux g 0 (us ++ vs)
      = (qlookupAux g 0 vs).map (fun l => ⟨l.cu + us.length, l.qb⟩) := by
  intro us
  induction us with
  | nil =>
    intro vs _
    show qlookupAux g 0 vs = _
    cases hv : qlookupAux g 0 vs with
    | none => rfl
    | some l =>
      cases l with
      | mk c j => simp
  | cons u us ih =>
    intro vs h
    by_cases hg : g ∈ u.qbs
    · simp [qlookupAux, hg] at h
    · simp only [qlookupAux, if_neg hg] at h
      simp only [List.cons_append, qlookupAux, if_neg hg, List.append_eq]
      rw [qlookupAux_shift] at h ⊢
      have h0 : qlookupAux g 0 us = none := by
        cases h2 : qlookupAux g 0 us with
        | none => rfl
        | some l => rw [h2] at h; simp at h
      rw [ih vs h0, Option.map_map]
      cases hv : qlookupAux g 0 vs with
      | none => rfl
      | some l =>
        cases l with
        | mk c j =>
          simp [List.length_cons]
          omega

theorem posOf_map_add (N : Nat) : ∀ (l : List Nat) (g : Nat),
    posOf (g + N) (l.map (fun x => x + N)) = posOf g l := by
  intro l
  induction l with
  | nil => intro g; rfl
  | cons x xs ih =>
    intro g
    by_cases hx : x = g
    · simp [posOf, hx]
    · have hxn : ¬ x + N = g + N := by omega
      simp [posOf, hx, hxn, ih g]

theorem qlookupAux_shifted_units (N : Nat) : ∀ (vs : List CUnit) (g : Nat),
    qlookupAux (g + N) 0 (vs.map (fun u => ⟨u.qbs.map (fun x => x + N), u.val⟩))
      = qlookupAux g 0 vs := by
  intro vs
  induction vs with
  | nil => intro g; rfl
  | cons u vs ih =>
    intro g
    by_cases hg : g ∈ u.qbs
    · have hg2 : g + N ∈ u.qbs.map (fun x => x + N) := List.mem_map.mpr ⟨g, hg, rfl⟩
      simp only [List.map_cons, qlookupAux, if_pos hg, if_pos hg2]
      rw [posOf_map_add]
    · have hg2 : ¬ g + N ∈ u.qbs.map (fun x => x + N) := by
        intro hmem
        rcases List.mem_map.mp hmem with ⟨x, hx, hxn⟩
        have : x = g := by omega
        exact hg (this ▸ hx)
      simp only [List.map_cons, qlookupAux, if_neg hg, if_neg hg2]
      rw [qlookupAux_shift, qlookupAux_shift g]
      rw [ih g]

theorem Cohere_qlookup_old (s t : SepState) {g : Nat} (hg : g < s.nBits) :
    qlookup (Cohere s t) g = qlookup s g := by
  show qlookupAux g 0 (s.units ++ _) = qlookupAux g 0 s.units
  cases hq : qlookupAux g 0 s.units with
  | some l => exact qlookupAux_append_some _ hq
  | none =>
    rw [qlookupAux_append_none _ hq]
    have hnone : qlookupAux g 0 (t.units.map
        (fun u => (⟨u.qbs.map (fun x => x + s.nBits), u.val⟩ : CUnit))) = none := by
      apply qlookupAux_eq_none.mpr
      intro u hu hgu
      rcases List.mem_map.mp hu with ⟨u0, _, huu⟩
      rw [← huu] at hgu
      rcases List.mem_map.mp hgu with ⟨x, _, hxg⟩
      omega
    rw [hnone]
    rfl

theorem Cohere_qlookup_new {s t : SepState} (hs : wf s) {g : Nat} (hg : s.nBits ≤ g) :
    qlookup (Cohere s t) g
      = (qlookup t (g - s.nBits)).map (fun l => ⟨l.cu + s.units.length, l.qb⟩) := by
  have hnone : qlookupAux g 0 s.units = none := by
    rw [← qlookup]
    rw [qlookup_eq_none_iff]
    intro hmem
    have := (wf_mem_iff hs).mp hmem
    omega
  show qlookupAux g 0 (s.units ++ _) = _
  rw [qlookupAux_append_none _ hnone]
  have hge : g - s.nBits + s.nBits = g := by omega
  conv_lhs => rw [← hge]
  rw [qlookupAux_shifted_units]
  rfl

end Qrack
namespace Qrack

theorem keepPred_iff {start len g : Nat} :
    keepPred start len g = true ↔ (g < start ∨ start + len ≤ g) := by
  simp [keepPred]

theorem shiftG_inj {start len a b : Nat} (ha : keepPred start len a = true)
    (hb : keepPred start len b = true) (h : shiftG start len a = shiftG start len b) :
    a = b := by
  rw [keepPred_iff] at ha hb
  rw [shiftG, shiftG] at h
  rcases ha with ha | ha <;> rcases hb with hb | hb <;>
    [skip; skip; skip; skip] <;> split_ifs at h <;> omega

theorem extractKeep_fst (p : Nat → Bool) (f : Nat → Nat) : ∀ (gs : List Nat) (v : Nat),
    (extractKeep p f gs v).1 = (gs.filter p).map f := by
  intro gs
  induction gs with
  | nil => intro v; rfl
  | cons g gs ih =>
    intro v
    by_cases hp : p g = true
    · simp [extractKeep, hp, List.filter_cons_of_pos hp, ih]
    · have hpf : p g = false := by
        cases h : p g with
        | true => exact absurd h hp
        | false => rfl
      rw [List.filter_cons_of_neg (by simp [hpf])]
      simp [extractKeep, hpf, ih]

theorem shiftRight_succ_div (v j : Nat) : v >>> (j + 1) = (v / 2) >>> j := by
  rw [Nat.shiftRight_eq_div_pow, Nat.shiftRight_eq_div_pow, pow_succ,
    Nat.mul_comm (2 ^ j) 2, ← Nat.div_div_eq_div_mul]

theorem extractKeep_bit {p : Nat → Bool} {f : Nat → Nat} :
    ∀ {gs : List Nat} {v j g : Nat}, gs.Nodup → (gs.filter p)[j]? = some g →
    ((extractKeep p f gs v).2 >>> j) % 2 = (v >>> posOf g gs) % 2 := by
  intro gs
  induction gs with
  | nil => intro v j g _ h; simp at h
  | cons x xs ih =>
    intro v j g hnd hget
    have hnd2 := List.nodup_cons.mp hnd
    by_cases hp : p x = true
    · rw [List.filter_cons_of_pos hp] at hget
      cases j with
      | zero =>
        rw [List.getElem?_cons_zero] at hget
        have hxg : x = g := Option.some.inj hget
        subst hxg
        have he : (extractKeep p f (x :: xs) v).2
            = v % 2 + 2 * (extractKeep p f xs (v / 2)).2 := by
          simp [extractKeep, hp]
        have hpos : posOf x (x :: xs) = 0 := by simp [posOf]
        rw [he, hpos, Nat.shiftRight_zero, Nat.shiftRight_zero]
        omega
      | succ m =>
        rw [List.getElem?_cons_succ] at hget
        have hgmem : g ∈ xs := by
          have := memOfGet hget
          exact (List.mem_filter.mp this).1
        have hgx : ¬ x = g := by
          intro h
          exact hnd2.1 (h ▸ hgmem)
        have he : (extractKeep p f (x :: xs) v).2
            = v % 2 + 2 * (extractKeep p f xs (v / 2)).2 := by
          simp [extractKeep, hp]
        rw [he, bitstep _ _ _ (Nat.mod_lt v (by norm_num)), ih hnd2.2 hget]
        have hpos : posOf g (x :: xs) = posOf g xs + 1 := by simp [posOf, hgx]
        rw [hpos, shiftRight_succ_div]
    · have hpf : p x = false := by
        cases h : p x with
        | true => exact absurd h hp
        | false => rfl
      rw [List.filter_cons_of_neg (by simp [hpf])] at hget
      have hgmem : g ∈ xs := by
        have := memOfGet hget
        exact (List.mem_filter.mp this).1
      have hgx : ¬ x = g := by
        intro h
        exact hnd2.1 (h ▸ hgmem)
      have he : (extractKeep p f (x :: xs) v).2 = (extractKeep p f xs (v / 2)).2 := by
        simp [extractKeep, hpf]
      rw [he, ih hnd2.2 hget]
      have hpos : posOf g (x :: xs) = posOf g xs + 1 := by simp [posOf, hgx]
      rw [hpos, shiftRight_succ_div]

theorem filter_map_flatten (p : Nat → Bool) (f : Nat → Nat) : ∀ (L : List (List Nat)),
    (L.map (fun l => (l.filter p).map f)).flatten = ((L.flatten).filter p).map f := by
  intro L
  induction L with
  | nil => rfl
  | cons l L ih =>
    rw [List.map_cons, List.flatten_cons, List.flatten_cons, List.filter_append,
      List.map_append, ih]

theorem rr_globals (s : SepState) (start len : Nat) :
    allGlobals (removeRange s start len)
      = ((allGlobals s).filter (keepPred start len)).map (shiftG start len) := by
  rw [allGlobals]
  show ((s.units.filterMap _).map CUnit.qbs).flatten = _
  rw [flatten_filterMap_map]
  have hcongr : ∀ u ∈ s.units,
      ((((fun u : CUnit =>
        match (extractKeep (keepPred start len) (shiftG start len) u.qbs u.val).1 with
        | [] => none
        | q :: qs =>
          some (⟨q :: qs, (extractKeep (keepPred start len) (shiftG start len) u.qbs u.val).2⟩
            : CUnit)) u).map CUnit.qbs).getD [])
      = (fun u : CUnit => (u.qbs.filter (keepPred start len)).map (shiftG start len)) u := by
    intro u _
    cases hr : (extractKeep (keepPred start len) (shiftG start len) u.qbs u.val).1 with
    | nil =>
      simp only [hr]
      have := extractKeep_fst (keepPred start len) (shiftG start len) u.qbs u.val
      rw [hr] at this
      rw [← this]
      rfl
    | cons q qs =>
      simp only [hr]
      have := extractKeep_fst (keepPred start len) (shiftG start len) u.qbs u.val
      rw [hr] at this
      rw [← this]
      rfl
  rw [List.map_congr_left hcongr]
  have hmm : s.units.map (fun u : CUnit => (u.qbs.filter (keepPred start len)).map (shiftG start len))
      = (s.units.map CUnit.qbs).map (fun l => (l.filter (keepPred start len)).map (shiftG start len)) := by
    rw [List.map_map]
    rfl
  rw [hmm, filter_map_flatten, allGlobals]

theorem range_filter_shift_perm {start len n : Nat} (h : start + len ≤ n) :
    ((((List.range n).filter (keepPred start len)).map (shiftG start len))).Perm
      (List.range (n - len)) := by
  apply List.perm_of_nodup_nodup_toFinset_eq
  · apply List.Nodup.map_on
    · intro x hx y hy hxy
      exact shiftG_inj (List.mem_filter.mp hx).2 (List.mem_filter.mp hy).2 hxy
    · exact List.Nodup.filter _ (List.nodup_range n)
  · exact List.nodup_range _
  · apply Finset.ext
    intro a
    rw [List.mem_toFinset, List.mem_toFinset, List.mem_range]
    constructor
    · intro hmem
      rcases List.mem_map.mp hmem with ⟨x, hx, hxa⟩
      have hx1 := List.mem_range.mp (List.mem_filter.mp hx).1
      have hx2 := keepPred_iff.mp (List.mem_filter.mp hx).2
      rw [shiftG] at hxa
      rcases hx2 with h2 | h2
      · rw [if_neg (by omega)] at hxa
        omega
      · rw [if_pos h2] at hxa
        omega
    · intro ha
      by_cases hlt : a < start
      · apply List.mem_map.mpr
        refine ⟨a, List.mem_filter.mpr ⟨List.mem_range.mpr (by omega), ?_⟩, ?_⟩
        · rw [keepPred_iff]
          omega
        · rw [shiftG, if_neg (by omega)]
      · apply List.mem_map.mpr
        refine ⟨a + len, List.mem_filter.mpr ⟨List.mem_range.mpr (by omega), ?_⟩, ?_⟩
        · rw [keepPred_iff]
          omega
        · rw [shiftG, if_pos (by omega)]
          omega

theorem rr_nBits (s : SepState) (start len : Nat) :
    (removeRange s start len).nBits = s.nBits - len := rfl

theorem rr_wf {s : SepState} (hwf : wf s) {start len : Nat} (hle : start + len ≤ s.nBits) :
    wf (removeRange s start len) := by
  constructor
  · rw [rr_globals]
    show (((allGlobals s).filter (keepPred start len)).map (shiftG start len)).Perm
      (List.range (s.nBits - len))
    refine List.Perm.trans ((hwf.1.filter (keepPred start len)).map (shiftG start len)) ?_
    exact range_filter_shift_perm hle
  · intro u hu
    rcases List.mem_filterMap.mp hu with ⟨u0, _, hu0⟩
    revert hu0
    cases hr : (extractKeep (keepPred start len) (shiftG start len) u0.qbs u0.val).1 with
    | nil =>
      intro hu0
      simp only [hr] at hu0
      cases hu0
    | cons q qs =>
      intro hu0
      simp only [hr] at hu0
      have := Option.some.inj hu0
      rw [← this]
      intro hc
      cases hc

end Qrack
namespace Qrack

theorem rr_readBit {s : SepState} (hwf : wf s) {start len : Nat} (hle : start + len ≤ s.nBits)
    {g : Nat} (hkeep : keepPred start len g = true) (hmem : g ∈ allGlobals s) :
    readBit (removeRange s start len) (shiftG start len g) = readBit s g := by
  have hwf2 := rr_wf hwf hle
  have hsome : (qlookup s g).isSome := qlookup_isSome_iff.mpr hmem
  rcases Option.isSome_iff_exists.mp hsome with ⟨l, hl⟩
  cases l with
  | mk c j =>
    rcases qlookup_sound hl with ⟨u, hu, hgu, hj⟩
    have hkeptmem : shiftG start len g
        ∈ (u.qbs.filter (keepPred start len)).map (shiftG start len) :=
      List.mem_map.mpr ⟨g, List.mem_filter.mpr ⟨hgu, hkeep⟩, rfl⟩
    have hfst := extractKeep_fst (keepPred start len) (shiftG start len) u.qbs u.val
    cases hr : (extractKeep (keepPred start len) (shiftG start len) u.qbs u.val).1 with
    | nil =>
      exfalso
      have hnil : (u.qbs.filter (keepPred start len)).map (shiftG start len) = [] :=
        hfst.symm.trans hr
      rw [hnil] at hkeptmem
      cases hkeptmem
    | cons q qs =>
      have hqqs : q :: qs = (u.qbs.filter (keepPred start len)).map (shiftG start len) := by
        have := hfst
        rw [hr] at this
        exact this
      have hu2 : (⟨q :: qs,
          (extractKeep (keepPred start len) (shiftG start len) u.qbs u.val).2⟩ : CUnit)
          ∈ (removeRange s start len).units := by
        apply List.mem_filterMap.mpr
        refine ⟨u, memOfGet hu, ?_⟩
        simp only [hr]
      rcases List.mem_iff_getElem?.mp hu2 with ⟨c2, hc2⟩
      have hmem2 : shiftG start len g ∈ (⟨q :: qs,
          (extractKeep (keepPred start len) (shiftG start len) u.qbs u.val).2⟩ : CUnit).qbs := by
        show shiftG start len g ∈ q :: qs
        rw [hqqs]
        exact hkeptmem
      have hql2 := qlookup_complete (nodupAll _ hwf2) hc2 hmem2
      have hrb2 := readBit_eq hql2 hc2
      rw [hrb2]
      show ((extractKeep (keepPred start len) (shiftG start len) u.qbs u.val).2 >>>
        posOf (shiftG start len g) (q :: qs)) % 2 = readBit s g
      rw [hqqs]
      have hq1 : (q :: qs)[posOf (shiftG start len g) (q :: qs)]? = some (shiftG start len g) :=
        posOf_getElem? hmem2
      rw [hqqs, List.getElem?_map] at hq1
      rcases Option.map_eq_some'.mp hq1 with ⟨g0, hg0, hg0s⟩
      have hg0mem := memOfGet hg0
      have hg0keep := (List.mem_filter.mp hg0mem).2
      have hg0g : g0 = g := shiftG_inj hg0keep hkeep hg0s
      rw [hg0g] at hg0
      have hbit := extractKeep_bit (p := keepPred start len) (f := shiftG start len)
        (v := u.val) (wf_unit_nodup hwf (memOfGet hu)) hg0
      have hrb1 : readBit s g = (u.val >>> j) % 2 := readBit_eq hl hu
      rw [hrb1, hj]
      exact hbit

theorem Decohere_fst_eq {s : SepState} {start len : Nat} (h : start + len ≤ s.nBits) :
    (Decohere s start len).1
      = removeRange (EntangleBitList s (GetOrderedBitList s start len)) start len := by
  rw [Decohere, if_pos h]

theorem Dispose_eq {s : SepState} {start len : Nat} (h : start + len ≤ s.nBits) :
    Dispose s start len
      = removeRange (EntangleBitList s (GetOrderedBitList s start len)) start len :=
  Decohere_fst_eq h

theorem Dispose_wf {s : SepState} (hwf : wf s) (start len : Nat) : wf (Dispose s start len) := by
  by_cases h : start + len ≤ s.nBits
  · rw [Dispose_eq h]
    apply rr_wf (EBL_wf hwf _)
    rw [EBL_nBits]
    exact h
  · rw [Dispose, Decohere, if_neg h]
    exact hwf

theorem Reachable_wf : ∀ {s : SepState}, Reachable s → wf s := by
  intro s h
  induction h with
  | init q v => exact initSU_wf q v
  | xg s q _ ih => exact Xgate_wf ih q
  | xr s a l _ ih => exact XRange_wf ih a l
  | mr s a l _ ih => exact MReg_wf ih a l
  | ccnot s a b c _ ih => exact CCNOT_wf ih a b c
  | swap s a b _ ih => exact SwapG_wf ih a b
  | cohere s t _ _ ihs iht => exact Cohere_wf ihs iht
  | dispose s a l _ ih => exact Dispose_wf ih a l
  | decohere s a l _ ih => exact Dispose_wf ih a l

end Qrack
namespace Qrack

theorem range_succ_shift {α : Type} (f : Nat → α) (n : Nat) :
    (List.range (n + 1)).map f = f 0 :: (List.range n).map (fun i => f (i + 1)) := by
  rw [List.range_succ_eq_map, List.map_cons, List.map_map]
  rfl

theorem buildRuns_cons_nil {p : QbLookup} {ps : List QbLookup} (h : buildRuns ps = []) :
    buildRuns (p :: ps) = [⟨p.cu, p.qb, 1⟩] := by
  show (match buildRuns ps with
    | [] => [(⟨p.cu, p.qb, 1⟩ : QbListEntry)]
    | e :: rest =>
      if p.cu = e.cu ∧ p.qb + 1 = e.start then ⟨e.cu, p.qb, e.length + 1⟩ :: rest
      else ⟨p.cu, p.qb, 1⟩ :: e :: rest) = _
  rw [h]

theorem buildRuns_cons_cons {p : QbLookup} {ps : List QbLookup} {e : QbListEntry}
    {rest : List QbListEntry} (h : buildRuns ps = e :: rest) :
    buildRuns (p :: ps)
      = if p.cu = e.cu ∧ p.qb + 1 = e.start then ⟨e.cu, p.qb, e.length + 1⟩ :: rest
        else ⟨p.cu, p.qb, 1⟩ :: e :: rest := by
  show (match buildRuns ps with
    | [] => [(⟨p.cu, p.qb, 1⟩ : QbListEntry)]
    | e :: rest =>
      if p.cu = e.cu ∧ p.qb + 1 = e.start then ⟨e.cu, p.qb, e.length + 1⟩ :: rest
      else ⟨p.cu, p.qb, 1⟩ :: e :: rest) = _
  rw [h]

theorem expandEntry_succ (cu st n : Nat) :
    expandEntry ⟨cu, st, n + 1⟩ = ⟨cu, st⟩ :: expandEntry ⟨cu, st + 1, n⟩ := by
  show (List.range (n + 1)).map (fun i => (⟨cu, st + i⟩ : QbLookup))
    = (⟨cu, st⟩ : QbLookup) :: (List.range n).map (fun i => (⟨cu, (st + 1) + i⟩ : QbLookup))
  rw [range_succ_shift]
  congr 1
  apply List.map_congr_left
  intro i _
  congr 1
  omega

theorem expandEntry_one (cu st : Nat) : expandEntry ⟨cu, st, 1⟩ = [⟨cu, st⟩] := rfl

theorem expand_buildRuns : ∀ (lks : List QbLookup),
    ((buildRuns lks).map expandEntry).flatten = lks := by
  intro lks
  induction lks with
  | nil => rfl
  | cons p ps ih =>
    cases hbr : buildRuns ps with
    | nil =>
      rw [hbr] at ih
      simp only [List.map_nil, List.flatten_nil] at ih
      rw [buildRuns_cons_nil hbr, ← ih]
      simp [expandEntry_one]
    | cons e rest =>
      rw [hbr] at ih
      rw [buildRuns_cons_cons hbr]
      by_cases h : p.cu = e.cu ∧ p.qb + 1 = e.start
      · rw [if_pos h]
        simp only [List.map_cons, List.flatten_cons] at ih ⊢
        rw [expandEntry_succ, h.2]
        have he : (⟨e.cu, e.start, e.length⟩ : QbListEntry) = e := rfl
        rw [he]
        have hp : (⟨e.cu, p.qb⟩ : QbLookup) = p := by
          have h2 : (⟨p.cu, p.qb⟩ : QbLookup) = p := rfl
          rw [← h2, ← h.1]
        rw [List.cons_append, hp, ih]
      · rw [if_neg h]
        simp only [List.map_cons, List.flatten_cons] at ih ⊢
        rw [expandEntry_one]
        have hp : (⟨p.cu, p.qb⟩ : QbLookup) = p := rfl
        rw [ih]
        simp [hp]

theorem buildRuns_consec : ∀ (n : Nat), 0 < n → ∀ (u l0 : Nat),
    buildRuns ((List.range n).map (fun i => (⟨u, l0 + i⟩ : QbLookup))) = [⟨u, l0, n⟩] := by
  intro n
  induction n with
  | zero => intro h; cases h
  | succ m ih =>
    intro _ u l0
    rw [range_succ_shift]
    have hshift : (List.range m).map (fun i => (⟨u, l0 + (i + 1)⟩ : QbLookup))
        = (List.range m).map (fun i => (⟨u, (l0 + 1) + i⟩ : QbLookup)) := by
      apply List.map_congr_left
      intro i _
      congr 1
      omega
    rw [hshift]
    cases m with
    | zero =>
      show buildRuns [⟨u, l0 + 0⟩] = _
      rfl
    | succ m2 =>
      have hbr := ih (Nat.succ_pos m2) u (l0 + 1)
      have hcond : (⟨u, l0 + 0⟩ : QbLookup).cu = (⟨u, l0 + 1, m2 + 1⟩ : QbListEntry).cu
          ∧ (⟨u, l0 + 0⟩ : QbLookup).qb + 1 = (⟨u, l0 + 1, m2 + 1⟩ : QbListEntry).start :=
        ⟨rfl, rfl⟩
      rw [buildRuns_cons_cons hbr, if_pos hcond]
      rfl

theorem qbListGlobals_cons (s : SepState) (e : QbListEntry) (l : List QbListEntry) :
    qbListGlobals s (e :: l) = entryGlobals s e ++ qbListGlobals s l := by
  rw [qbListGlobals, List.map_cons, List.flatten_cons]
  rfl

theorem entryGlobals_succ (s : SepState) (cu st n : Nat) :
    entryGlobals s ⟨cu, st, n + 1⟩
      = (qubitInverseLookup s cu st).getD 0 :: entryGlobals s ⟨cu, st + 1, n⟩ := by
  show (List.range (n + 1)).map (fun i => (qubitInverseLookup s cu (st + i)).getD 0)
    = (qubitInverseLookup s cu st).getD 0
      :: (List.range n).map (fun i => (qubitInverseLookup s cu ((st + 1) + i)).getD 0)
  rw [range_succ_shift]
  congr 1
  apply List.map_congr_left
  intro i _
  congr 2
  omega

theorem entryGlobals_one (s : SepState) (cu st : Nat) :
    entryGlobals s ⟨cu, st, 1⟩ = [(qubitInverseLookup s cu st).getD 0] := rfl

theorem qbListGlobals_buildRuns (s : SepState) : ∀ (lks : List QbLookup),
    qbListGlobals s (buildRuns lks)
      = lks.map (fun p => (qubitInverseLookup s p.cu p.qb).getD 0) := by
  intro lks
  induction lks with
  | nil => rfl
  | cons p ps ih =>
    cases hbr : buildRuns ps with
    | nil =>
      rw [hbr] at ih
      have hps : ps.map (fun p => (qubitInverseLookup s p.cu p.qb).getD 0) = [] := by
        rw [← ih]
        rfl
      rw [buildRuns_cons_nil hbr, List.map_cons, hps, qbListGlobals_cons, entryGlobals_one]
      rfl
    | cons e rest =>
      rw [hbr] at ih
      rw [buildRuns_cons_cons hbr]
      by_cases h : p.cu = e.cu ∧ p.qb + 1 = e.start
      · rw [if_pos h]
        rw [qbListGlobals_cons, entryGlobals_succ, h.2]
        have he : (⟨e.cu, e.start, e.length⟩ : QbListEntry) = e := rfl
        rw [he, List.map_cons, List.cons_append, ← qbListGlobals_cons s e rest, ih, ← h.1]
      · rw [if_neg h]
        rw [qbListGlobals_cons, entryGlobals_one, List.map_cons, ih]
        rfl

end Qrack
namespace Qrack

theorem insertLk_perm (a : QbLookup) : ∀ (l : List QbLookup), (insertLk a l).Perm (a :: l) := by
  intro l
  induction l with
  | nil => exact List.Perm.refl _
  | cons b rest ih =>
    show (if a.cu < b.cu ∨ (a.cu = b.cu ∧ a.qb ≤ b.qb) then a :: b :: rest
      else b :: insertLk a rest).Perm (a :: b :: rest)
    by_cases h : a.cu < b.cu ∨ (a.cu = b.cu ∧ a.qb ≤ b.qb)
    · rw [if_pos h]
    · rw [if_neg h]
      exact List.Perm.trans (List.Perm.cons b ih) (List.Perm.swap a b rest)

theorem sortLks_perm : ∀ (l : List QbLookup), (sortLks l).Perm l := by
  intro l
  induction l with
  | nil => exact List.Perm.refl _
  | cons a rest ih =>
    show (insertLk a (sortLks rest)).Perm (a :: rest)
    exact List.Perm.trans (insertLk_perm a (sortLks rest)) (List.Perm.cons a ih)

theorem insertE_perm (a : QbListEntry) : ∀ (l : List QbListEntry),
    (insertE a l).Perm (a :: l) := by
  intro l
  induction l with
  | nil => exact List.Perm.refl _
  | cons b rest ih =>
    show (if a.cu < b.cu ∨ (a.cu = b.cu ∧ a.start ≤ b.start) then a :: b :: rest
      else b :: insertE a rest).Perm (a :: b :: rest)
    by_cases h : a.cu < b.cu ∨ (a.cu = b.cu ∧ a.start ≤ b.start)
    · rw [if_pos h]
    · rw [if_neg h]
      exact List.Perm.trans (List.Perm.cons b ih) (List.Perm.swap a b rest)

theorem sortEs_perm : ∀ (l : List QbListEntry), (sortEs l).Perm l := by
  intro l
  induction l with
  | nil => exact List.Perm.refl _
  | cons a rest ih =>
    show (insertE a (sortEs rest)).Perm (a :: rest)
    exact List.Perm.trans (insertE_perm a (sortEs rest)) (List.Perm.cons a ih)

theorem mergeAdj_cons_nil {a : QbListEntry} {r : List QbListEntry} (h : mergeAdj r = []) :
    mergeAdj (a :: r) = [a] := by
  show (match mergeAdj r with
    | [] => [a]
    | b :: rest2 =>
      if a.cu = b.cu ∧ a.start + a.length = b.start then ⟨a.cu, a.start, a.length + b.length⟩ :: rest2
      else a :: b :: rest2) = _
  rw [h]

theorem mergeAdj_cons_cons {a b : QbListEntry} {r : List QbListEntry} {rest2 : List QbListEntry}
    (h : mergeAdj r = b :: rest2) :
    mergeAdj (a :: r)
      = if a.cu = b.cu ∧ a.start + a.length = b.start
        then ⟨a.cu, a.start, a.length + b.length⟩ :: rest2
        else a :: b :: rest2 := by
  show (match mergeAdj r with
    | [] => [a]
    | b :: rest2 =>
      if a.cu = b.cu ∧ a.start + a.length = b.start then ⟨a.cu, a.start, a.length + b.length⟩ :: rest2
      else a :: b :: rest2) = _
  rw [h]

theorem coveredPairs_split (cu st la lb : Nat) :
    coveredPairs ⟨cu, st, la + lb⟩
      = coveredPairs ⟨cu, st, la⟩ ++ coveredPairs ⟨cu, st + la, lb⟩ := by
  show (List.range (la + lb)).map (fun i => (cu, st + i)) = _
  rw [List.range_add, List.map_append, List.map_map]
  congr 1
  apply List.map_congr_left
  intro i _
  show (cu, st + (la + i)) = (cu, (st + la) + i)
  congr 1
  omega

theorem pairsOf_cons (e : QbListEntry) (l : List QbListEntry) :
    pairsOf (e :: l) = coveredPairs e ++ pairsOf l := by
  rw [pairsOf, List.map_cons, List.flatten_cons]
  rfl

theorem mergeAdj_pairs : ∀ (l : List QbListEntry), pairsOf (mergeAdj l) = pairsOf l := by
  intro l
  induction l with
  | nil => rfl
  | cons a r ih =>
    cases hm : mergeAdj r with
    | nil =>
      rw [hm] at ih
      rw [mergeAdj_cons_nil hm, pairsOf_cons, pairsOf_cons, ← ih]
    | cons b rest2 =>
      rw [hm] at ih
      rw [mergeAdj_cons_cons hm]
      by_cases h : a.cu = b.cu ∧ a.start + a.length = b.start
      · rw [if_pos h]
        rw [pairsOf_cons, coveredPairs_split]
        have hb : (⟨a.cu, a.start + a.length, b.length⟩ : QbListEntry) = b := by
          have h2 : (⟨b.cu, b.start, b.length⟩ : QbListEntry) = b := rfl
          rw [← h2, h.1, h.2]
        rw [hb, List.append_assoc, ← pairsOf_cons, ih, ← pairsOf_cons]
      · rw [if_neg h]
        rw [pairsOf_cons, pairsOf_cons, ← pairsOf_cons, ih, ← pairsOf_cons]

theorem mergeAdj_head_eq : ∀ (x : QbListEntry) (r : List QbListEntry),
    ∃ b rest2, mergeAdj (x :: r) = b :: rest2 ∧ b.cu = x.cu ∧ b.start = x.start := by
  intro x r
  cases hm : mergeAdj r with
  | nil => exact ⟨x, [], mergeAdj_cons_nil hm, rfl, rfl⟩
  | cons b rest2 =>
    rw [mergeAdj_cons_cons hm]
    by_cases h : x.cu = b.cu ∧ x.start + x.length = b.start
    · rw [if_pos h]
      exact ⟨_, _, rfl, rfl, rfl⟩
    · rw [if_neg h]
      exact ⟨x, b :: rest2, rfl, rfl, rfl⟩

theorem mergeAdj_chain : ∀ (l : List QbListEntry),
    List.Chain' (fun a b => ¬ (a.cu = b.cu ∧ a.start + a.length = b.start)) (mergeAdj l) := by
  intro l
  induction l with
  | nil => exact List.chain'_nil
  | cons a r ih =>
    cases hm : mergeAdj r with
    | nil =>
      rw [mergeAdj_cons_nil hm]
      exact List.chain'_singleton a
    | cons b rest2 =>
      rw [hm] at ih
      rw [mergeAdj_cons_cons hm]
      by_cases h : a.cu = b.cu ∧ a.start + a.length = b.start
      · rw [if_pos h]
        rcases List.chain'_cons'.mp ih with ⟨hhead, htail⟩
        apply List.chain'_cons'.mpr
        constructor
        · intro c hc
          have hbc := hhead c hc
          intro hcontra
          apply hbc
          constructor
          · rw [← h.1]
            exact hcontra.1
          · have : a.start + (a.length + b.length) = b.start + b.length := by
              omega
            rw [← this]
            exact hcontra.2
        · exact htail
      · rw [if_neg h]
        apply List.chain'_cons.mpr
        exact ⟨h, ih⟩

theorem optimize_pairs_perm (l : List QbListEntry) :
    (pairsOf (OptimizeParallelBitList l)).Perm (pairsOf l) := by
  rw [OptimizeParallelBitList, mergeAdj_pairs]
  exact ((sortEs_perm l).map coveredPairs).flatten

theorem optimize_chain (l : List QbListEntry) :
    List.Chain' (fun a b => ¬ (a.cu = b.cu ∧ a.start + a.length = b.start))
      (OptimizeParallelBitList l) :=
  mergeAdj_chain (sortEs l)

end Qrack
namespace Qrack

theorem ordered_globals {s : SepState} {start len : Nat}
    (hlive : ∀ i, i < len → (qlookup s (start + i)).isSome) :
    qbListGlobals s (GetOrderedBitList s start len)
      = (List.range len).map (fun i => start + i) := by
  rw [GetOrderedBitList, qbListGlobals_buildRuns, rangeLks, List.map_map]
  apply List.map_congr_left
  intro i hi
  have hi2 := List.mem_range.mp hi
  rcases Option.isSome_iff_exists.mp (hlive i hi2) with ⟨l, hl⟩
  cases l with
  | mk c j =>
    show (qubitInverseLookup s (lkOf s (start + i)).cu (lkOf s (start + i)).qb).getD 0 = start + i
    have hlk : lkOf s (start + i) = ⟨c, j⟩ := by
      rw [lkOf, hl]
      rfl
    rw [hlk]
    rw [inv_of_qlookup hl]
    rfl

theorem single_unit_entangle {s : SepState} (hwf : wf s) {start len u : Nat}
    (hin : ∀ i, i < len → ∃ j, qlookup s (start + i) = some ⟨u, j⟩) :
    (EntangleBitList s (GetOrderedBitList s start len)).units.length = s.units.length
    ∧ (∀ g c j, qlookup s g = some ⟨c, j⟩ → c ≠ u →
        qlookup (EntangleBitList s (GetOrderedBitList s start len)) g = some ⟨c, j⟩)
    ∧ (∀ g c j, qlookup s g = some ⟨c, j⟩ → ∃ j2,
        qlookup (EntangleBitList s (GetOrderedBitList s start len)) g = some ⟨c, j2⟩) := by
  cases len with
  | zero =>
    have hs : EntangleBitList s (GetOrderedBitList s start 0) = s := rfl
    rw [hs]
    refine ⟨rfl, fun g c j h _ => h, fun g c j h => ⟨j, h⟩⟩
  | succ m =>
    have hlive : ∀ i, i < m + 1 → (qlookup s (start + i)).isSome := by
      intro i hi
      rcases hin i hi with ⟨j, hj⟩
      rw [hj]
      rfl
    have hgs := ordered_globals hlive
    have hgsnd : (qbListGlobals s (GetOrderedBitList s start (m + 1))).Nodup := by
      rw [hgs]
      apply List.Nodup.map_on
      · intro x _ y _ hxy
        omega
      · exact List.nodup_range (m + 1)
    have hgslive : ∀ g ∈ qbListGlobals s (GetOrderedBitList s start (m + 1)),
        (qlookup s g).isSome := by
      rw [hgs]
      intro g hg
      rcases List.mem_map.mp hg with ⟨i, hi, hig⟩
      rw [← hig]
      exact hlive i (List.mem_range.mp hi)
    have hcuconst : ∀ g ∈ qbListGlobals s (GetOrderedBitList s start (m + 1)), cuOf s g = u := by
      rw [hgs]
      intro g hg
      rcases List.mem_map.mp hg with ⟨i, hi, hig⟩
      rcases hin i (List.mem_range.mp hi) with ⟨j, hj⟩
      rw [← hig, cuOf, hj]
      rfl
    have hgsne : qbListGlobals s (GetOrderedBitList s start (m + 1)) ≠ [] := by
      rw [hgs]
      intro hc
      have := congrArg List.length hc
      simp at this
    have hself := liveGs_eq_self hgsnd hgslive
    have hcus : dedupF ((liveGs s (qbListGlobals s (GetOrderedBitList s start (m + 1)))).map
        (cuOf s)) = u :: [] := by
      rw [hself]
      exact dedupF_of_const hcuconst hgsne
    have hebl : EntangleBitList s (GetOrderedBitList s start (m + 1))
        = entangleCore s (liveGs s (qbListGlobals s (GetOrderedBitList s start (m + 1)))) u [] :=
      eg_eq_core hcus
    have hwf2 : wf (EntangleBitList s (GetOrderedBitList s start (m + 1))) :=
      EBL_wf hwf _
    rw [hebl] at hwf2 ⊢
    refine ⟨ec_length_norest s _ u, ?_, ?_⟩
    · intro g c j hq hcu
      rcases qlookup_sound hq with ⟨u0, hu0, hgu0, hju0⟩
      have hc2 : (entangleCore s (liveGs s (qbListGlobals s
          (GetOrderedBitList s start (m + 1)))) u []).units[c]? = some u0 := by
        rw [ec_getElem_norest, hu0]
        simp [hcu]
      rw [qlookup_complete (nodupAll _ hwf2) hc2 hgu0, hju0]
    · intro g c j hq
      by_cases hcu : c = u
      · subst hcu
        rcases qlookup_sound hq with ⟨u0, hu0, hgu0, _⟩
        have hgpool : g ∈ ecPool s c [] := by
          rw [ecPool]
          apply List.mem_flatten.mpr
          refine ⟨unitQbs s c, List.mem_map.mpr ⟨c, List.mem_cons_self c [], rfl⟩, ?_⟩
          rw [unitQbs_eq_some hu0]
          exact hgu0
        have hgq : g ∈ ecQbs s (liveGs s (qbListGlobals s
            (GetOrderedBitList s start (m + 1)))) c [] := by
          rw [ecQbs]
          by_cases hgin : g ∈ liveGs s (qbListGlobals s (GetOrderedBitList s start (m + 1)))
          · exact List.mem_append_left _ hgin
          · exact List.mem_append_right _ (List.mem_filter.mpr ⟨hgpool, by simp [hgin]⟩)
        have hcm : (entangleCore s (liveGs s (qbListGlobals s
            (GetOrderedBitList s start (m + 1)))) c []).units[c]?
            = some (ecMerged s (liveGs s (qbListGlobals s
              (GetOrderedBitList s start (m + 1)))) c []) := by
          rw [ec_getElem_norest, hu0]
          simp
        refine ⟨_, qlookup_complete (nodupAll _ hwf2) hcm hgq⟩
      · rcases qlookup_sound hq with ⟨u0, hu0, hgu0, hju0⟩
        have hc2 : (entangleCore s (liveGs s (qbListGlobals s
            (GetOrderedBitList s start (m + 1)))) u []).units[c]? = some u0 := by
          rw [ec_getElem_norest, hu0]
          simp [hcu]
        exact ⟨_, qlookup_complete (nodupAll _ hwf2) hc2 hgu0⟩

end Qrack
namespace Qrack

/-- C1: in every state reachable by the modelled public operations, the forward
lookup table and the inverse lookup table are exact inverses of each other
restricted to the qubits each unit owns, a global index has a lookup entry
exactly when it is a live index below `N` (so each live index has exactly one
entry), the inverse table covers exactly the valid local indices of the live
units, and the sum of the unit widths equals the tracked qubit count `N`. -/
theorem C1_partition_invariant (s : SepState) (h : Reachable s) :
    (∀ g c i, qlookup s g = some ⟨c, i⟩ ↔ qubitInverseLookup s c i = some g)
    ∧ (∀ g, (qlookup s g).isSome ↔ g < s.nBits)
    ∧ (∀ c i, (qubitInverseLookup s c i).isSome
        ↔ ∃ u, s.units[c]? = some u ∧ i < u.qbs.length)
    ∧ (s.units.map (fun u => u.qbs.length)).sum = s.nBits := by
  have hwf := Reachable_wf h
  refine ⟨?_, ?_, ?_, wf_width_sum hwf⟩
  · intro g c i
    exact ⟨inv_of_qlookup, qlookup_of_inv hwf⟩
  · intro g
    exact wf_isSome_iff hwf
  · intro c i
    exact inv_isSome_iff

theorem C1_partition_invariant_witness :
    (qlookup (initSU 2 3) 0 = some ⟨0, 0⟩ ↔ qubitInverseLookup (initSU 2 3) 0 0 = some 0)
    ∧ ((qlookup (initSU 2 3) 1).isSome ↔ 1 < (initSU 2 3).nBits)
    ∧ ((initSU 2 3).units.map (fun u => u.qbs.length)).sum = (initSU 2 3).nBits := by
  have h := C1_partition_invariant (initSU 2 3) (Reachable.init 2 3)
  exact ⟨h.1 0 0 0, h.2.1 1, h.2.2.2⟩

/-- C2: `GetOrderedBitList` compiles a contiguous global range into runs whose
concatenation reproduces the range's lookup entries in exact index order; a
zero-length request yields the empty list; and a request whose qubits all lie
in one unit at consecutive local indices yields a single descriptor. -/
theorem C2_ordered_bit_list (s : SepState) (start len : Nat) :
    ((GetOrderedBitList s start len).map expandEntry).flatten = rangeLks s start len
    ∧ GetOrderedBitList s start 0 = []
    ∧ (∀ u l0, 0 < len → (∀ i, i < len → qlookup s (start + i) = some ⟨u, l0 + i⟩) →
        GetOrderedBitList s start len = [⟨u, l0, len⟩]) := by
  refine ⟨expand_buildRuns _, rfl, ?_⟩
  intro u l0 hlen hconsec
  rw [GetOrderedBitList, rangeLks]
  have hmap : (List.range len).map (fun i => lkOf s (start + i))
      = (List.range len).map (fun i => (⟨u, l0 + i⟩ : QbLookup)) := by
    apply List.map_congr_left
    intro i hi
    rw [lkOf, hconsec i (List.mem_range.mp hi)]
    rfl
  rw [hmap, buildRuns_consec len hlen u l0]

theorem C2_ordered_bit_list_witness :
    GetOrderedBitList (EntangleIndices (initSU 2 0) [0, 1]) 0 2 = [⟨0, 0, 2⟩]
    ∧ GetOrderedBitList (initSU 2 0) 5 0 = [] := by
  have h := C2_ordered_bit_list (EntangleIndices (initSU 2 0) [0, 1]) 0 2
  refine ⟨h.2.2 0 0 (by decide) ?_, (C2_ordered_bit_list (initSU 2 0) 5 0).2.1⟩
  intro i hi
  match i, hi with
  | 0, _ => decide
  | 1, _ => decide

/-- C3 (counterexample): a bit list produced by `GetParallelBitList` on a
reachable state whose requested qubits sit at non-adjacent local indices of one
unit keeps two descriptors with the same unit handle after
`OptimizeParallelBitList`, refuting "at most one descriptor per distinct unit
handle". -/
theorem C3_counterexample :
    GetParallelBitList (CCNOT (initSU 3 0) 2 0 1) 1 2 = [⟨0, 0, 1⟩, ⟨0, 2, 1⟩]
    ∧ OptimizeParallelBitList (GetParallelBitList (CCNOT (initSU 3 0) 2 0 1) 1 2)
        = [⟨0, 0, 1⟩, ⟨0, 2, 1⟩]
    ∧ ¬ ((OptimizeParallelBitList (GetParallelBitList (CCNOT (initSU 3 0) 2 0 1) 1 2)).map
        QbListEntry.cu).Nodup := by
  decide

/-- C3 (amended): after `OptimizeParallelBitList` runs on a bit list, all
descriptors sharing a unit handle at adjacent local ranges have been merged —
no two consecutive descriptors of the optimized list form a mergeable
same-unit pair — and the multiset of (unit, local) positions covered by the
list is unchanged by the pass. -/
theorem C3_optimize_parallel (l : List QbListEntry) :
    (pairsOf (OptimizeParallelBitList l)).Perm (pairsOf l)
    ∧ List.Chain' (fun a b => ¬ (a.cu = b.cu ∧ a.start + a.length = b.start))
        (OptimizeParallelBitList l) :=
  ⟨optimize_pairs_perm l, optimize_chain l⟩

/-- C4: for every non-empty valid bit list (its requested globals distinct and
live), `EntangleBitList` leaves all the requested qubits in exactly one
coherent unit, at the contiguous local offsets `0..k-1` in the order the list
requests, and the two lookup tables remain well formed and mutually exact
afterwards, locating every requested qubit correctly. -/
theorem C4_entangle_bit_list (s : SepState) (l : List QbListEntry) (hwf : wf s)
    (hnd : (qbListGlobals s l).Nodup)
    (hlive : ∀ g ∈ qbListGlobals s l, (qlookup s g).isSome)
    (hne : qbListGlobals s l ≠ []) :
    wf (EntangleBitList s l)
    ∧ ∃ D, ∀ i g, (qbListGlobals s l)[i]? = some g →
        qlookup (EntangleBitList s l) g = some ⟨D, i⟩ :=
  ⟨EBL_wf hwf l, eg_req hwf hnd hlive hne⟩

theorem C4_entangle_bit_list_witness :
    wf (EntangleBitList (initSU 2 0) [⟨0, 0, 1⟩, ⟨1, 0, 1⟩])
    ∧ ∃ D, ∀ i g, (qbListGlobals (initSU 2 0) [⟨0, 0, 1⟩, ⟨1, 0, 1⟩])[i]? = some g →
        qlookup (EntangleBitList (initSU 2 0) [⟨0, 0, 1⟩, ⟨1, 0, 1⟩]) g = some ⟨D, i⟩ :=
  C4_entangle_bit_list (initSU 2 0) [⟨0, 0, 1⟩, ⟨1, 0, 1⟩]
    (by decide) (by decide) (by decide) (by decide)

/-- C5: `Cohere` grows the qubit count by the absorbed width, the absorbed
qubits occupy the fresh global indices `N..N+W-1` inside units appended after
the existing live set, and the lookup entry of every pre-existing global index
below `N` is unchanged. -/
theorem C5_cohere (s t : SepState) (hs : wf s) (ht : wf t) :
    (Cohere s t).nBits = s.nBits + t.nBits
    ∧ (∀ g, g < s.nBits → qlookup (Cohere s t) g = qlookup s g)
    ∧ (∀ g, s.nBits ≤ g → g < s.nBits + t.nBits →
        ∃ l, qlookup t (g - s.nBits) = some l
          ∧ qlookup (Cohere s t) g = some ⟨l.cu + s.units.length, l.qb⟩) := by
  refine ⟨rfl, fun g hg => Cohere_qlookup_old s t hg, ?_⟩
  intro g hg1 hg2
  have hsome : (qlookup t (g - s.nBits)).isSome := by
    rw [wf_isSome_iff ht]
    omega
  rcases Option.isSome_iff_exists.mp hsome with ⟨l, hl⟩
  refine ⟨l, hl, ?_⟩
  rw [Cohere_qlookup_new hs hg1, hl]
  rfl

theorem C5_cohere_witness :
    (Cohere (initSU 1 1) (initSU 1 0)).nBits = (initSU 1 1).nBits + (initSU 1 0).nBits
    ∧ qlookup (Cohere (initSU 1 1) (initSU 1 0)) 0 = qlookup (initSU 1 1) 0
    ∧ ∃ l, qlookup (initSU 1 0) (1 - (initSU 1 1).nBits) = some l
        ∧ qlookup (Cohere (initSU 1 1) (initSU 1 0)) 1
          = some ⟨l.cu + (initSU 1 1).units.length, l.qb⟩ := by
  have h := C5_cohere (initSU 1 1) (initSU 1 0) (by decide) (by decide)
  exact ⟨h.1, h.2.1 0 (by decide), h.2.2 1 (by decide) (by decide)⟩

/-- C6: `Decohere`/`Dispose` of an in-range contiguous global range of length
`len` (the separability contract is exact on the basis-state model) shrinks the
qubit count by `len`, removes the removed global indices from both lookup
tables, and re-points every surviving global index above the range downward by
`len`, so the shifted indices stay live and address the same qubit values as
before the call. -/
theorem C6_remove_range (s : SepState) (start len : Nat) (hwf : wf s)
    (hle : start + len ≤ s.nBits) :
    (Dispose s start len).nBits = s.nBits - len
    ∧ (Decohere s start len).1 = Dispose s start len
    ∧ (∀ g, s.nBits - len ≤ g → qlookup (Dispose s start len) g = none)
    ∧ (∀ c i g, qubitInverseLookup (Dispose s start len) c i = some g → g < s.nBits - len)
    ∧ (∀ g, g < start → (qlookup (Dispose s start len) g).isSome
        ∧ readBit (Dispose s start len) g = readBit s g)
    ∧ (∀ g, start + len ≤ g → g < s.nBits →
        (qlookup (Dispose s start len) (g - len)).isSome
        ∧ readBit (Dispose s start len) (g - len) = readBit s g) := by
  have hwt : wf (EntangleBitList s (GetOrderedBitList s start len)) := EBL_wf hwf _
  have htn : (EntangleBitList s (GetOrderedBitList s start len)).nBits = s.nBits :=
    EBL_nBits s _
  have hle2 : start + len ≤ (EntangleBitList s (GetOrderedBitList s start len)).nBits := by
    rw [htn]
    exact hle
  have hwf2 : wf (Dispose s start len) := Dispose_wf hwf start len
  have hdn : (Dispose s start len).nBits = s.nBits - len := by
    rw [Dispose_eq hle, rr_nBits, htn]
  refine ⟨hdn, rfl, ?_, ?_, ?_, ?_⟩
  · intro g hg
    rw [← Option.not_isSome_iff_eq_none, wf_isSome_iff hwf2, hdn]
    omega
  · intro c i g hinv
    have := inv_entry_lt hwf2 hinv
    rw [hdn] at this
    exact this
  · intro g hg
    constructor
    · rw [wf_isSome_iff hwf2, hdn]
      omega
    · have hkeep : keepPred start len g = true := keepPred_iff.mpr (Or.inl hg)
      have hmem : g ∈ allGlobals (EntangleBitList s (GetOrderedBitList s start len)) := by
        rw [wf_mem_iff hwt, htn]
        omega
      have hrr := rr_readBit hwt hle2 hkeep hmem
      have hsh : shiftG start len g = g := by
        rw [shiftG, if_neg (by omega)]
      rw [hsh] at hrr
      rw [Dispose_eq hle, hrr, EBL_readBit hwf]
  · intro g hg1 hg2
    constructor
    · rw [wf_isSome_iff hwf2, hdn]
      omega
    · have hkeep : keepPred start len g = true := keepPred_iff.mpr (Or.inr hg1)
      have hmem : g ∈ allGlobals (EntangleBitList s (GetOrderedBitList s start len)) := by
        rw [wf_mem_iff hwt, htn]
        omega
      have hrr := rr_readBit hwt hle2 hkeep hmem
      have hsh : shiftG start len g = g - len := by
        rw [shiftG, if_pos hg1]
      rw [hsh] at hrr
      rw [Dispose_eq hle, hrr, EBL_readBit hwf]

theorem C6_remove_range_witness :
    (Dispose (initSU 3 5) 1 1).nBits = (initSU 3 5).nBits - 1
    ∧ qlookup (Dispose (initSU 3 5) 1 1) 2 = none
    ∧ readBit (Dispose (initSU 3 5) 1 1) 0 = readBit (initSU 3 5) 0
    ∧ readBit (Dispose (initSU 3 5) 1 1) 1 = readBit (initSU 3 5) 2 := by
  have h := C6_remove_range (initSU 3 5) 1 1 (by decide) (by decide)
  exact ⟨h.1, h.2.2.1 2 (by decide), (h.2.2.2.2.1 0 (by decide)).2,
    (h.2.2.2.2.2 2 (by decide) (by decide)).2⟩

/-- C7 (counterexample): the claim fails on the modelled entangler — on a
reachable state whose single unit holds globals (2, 0, 1) at locals (0, 1, 2),
the range [0, 2) lies entirely inside that one unit, yet reading it via the
merge-requiring `MReg` reorders the unit and moves qubit 2 (outside the range)
from lookup entry (0, 0) to (0, 2), while the unit count stays 1. -/
theorem C7_counterexample :
    cuOf (CCNOT (initSU 3 0) 2 0 1) 0 = 0
    ∧ cuOf (CCNOT (initSU 3 0) 2 0 1) 1 = 0
    ∧ (CCNOT (initSU 3 0) 2 0 1).units.length = 1
    ∧ ((MReg (CCNOT (initSU 3 0) 2 0 1) 0 2).2).units.length = 1
    ∧ qlookup (CCNOT (initSU 3 0) 2 0 1) 2 = some ⟨0, 0⟩
    ∧ qlookup ((MReg (CCNOT (initSU 3 0) 2 0 1) 0 2).2) 2 = some ⟨0, 2⟩ := by
  decide

/-- C7 (amended): a merge-requiring operation invoked on a global range already
lying entirely inside one coherent unit leaves the number of live units
unchanged, leaves the lookup entry of every qubit in any other unit completely
unchanged, and keeps every qubit in its unit — though a qubit sharing the
affected unit may move to a different local index during the reorder. -/
theorem C7_no_merge_frame (s : SepState) (start len u : Nat) (hwf : wf s)
    (hin : ∀ i, i < len → ∃ j, qlookup s (start + i) = some ⟨u, j⟩) :
    (EntangleBitList s (GetOrderedBitList s start len)).units.length = s.units.length
    ∧ (∀ g c j, qlookup s g = some ⟨c, j⟩ → c ≠ u →
        qlookup (EntangleBitList s (GetOrderedBitList s start len)) g = some ⟨c, j⟩)
    ∧ (∀ g c j, qlookup s g = some ⟨c, j⟩ → ∃ j2,
        qlookup (EntangleBitList s (GetOrderedBitList s start len)) g = some ⟨c, j2⟩) :=
  single_unit_entangle hwf hin

theorem C7_no_merge_frame_witness :
    (EntangleBitList (Cohere (EntangleIndices (initSU 2 0) [0, 1]) (initSU 1 0))
        (GetOrderedBitList (Cohere (EntangleIndices (initSU 2 0) [0, 1]) (initSU 1 0))
          0 2)).units.length
      = (Cohere (EntangleIndices (initSU 2 0) [0, 1]) (initSU 1 0)).units.length
    ∧ qlookup (EntangleBitList (Cohere (EntangleIndices (initSU 2 0) [0, 1]) (initSU 1 0))
        (GetOrderedBitList (Cohere (EntangleIndices (initSU 2 0) [0, 1]) (initSU 1 0)) 0 2)) 2
      = some ⟨1, 0⟩ := by
  have h := C7_no_merge_frame (Cohere (EntangleIndices (initSU 2 0) [0, 1]) (initSU 1 0))
    0 2 0 (by decide) ?hin
  case hin =>
    intro i hi
    match i, hi with
    | 0, _ => exact ⟨0, by decide⟩
    | 1, _ => exact ⟨1, by decide⟩
  exact ⟨h.1, h.2.1 2 1 0 (by decide) (by decide)⟩

/-- C8: constructing a `SeparatedUnit` with 4 qubits in permutation state
0b0101 and reading the register over [0, 4) via `MReg` returns 5; after
applying `X` to qubit 0 of that state, the same read returns 4. -/
theorem C8_round_trip :
    (MReg (initSU 4 5) 0 4).1 = 5
    ∧ (MReg (Xgate (MReg (initSU 4 5) 0 4).2 0) 0 4).1 = 4 := by
  decide

/-- C9: every modelled public operation is deterministic — running the same
operation with equal inputs from equal states yields equal resulting states and
equal return values (on the basis-state model this extends even to `MReg`,
whose outcome is the determined register value); in particular entangling the
same bit list twice from the same partition produces the identical internal
local ordering in the resulting unit. -/
theorem C9_deterministic (s t : SepState) (h : s = t) :
    (∀ q, Xgate s q = Xgate t q)
    ∧ (∀ a len, XRange s a len = XRange t a len)
    ∧ (∀ a len, MReg s a len = MReg t a len)
    ∧ (∀ a b c, CCNOT s a b c = CCNOT t a b c)
    ∧ (∀ a b, SwapG s a b = SwapG t a b)
    ∧ (∀ r, Cohere s r = Cohere t r)
    ∧ (∀ a len, Decohere s a len = Decohere t a len)
    ∧ (∀ a len, Dispose s a len = Dispose t a len)
    ∧ (∀ l, (EntangleBitList s l).units = (EntangleBitList t l).units) := by
  subst h
  exact ⟨fun _ => rfl, fun _ _ => rfl, fun _ _ => rfl, fun _ _ _ => rfl, fun _ _ => rfl,
    fun _ => rfl, fun _ _ => rfl, fun _ _ => rfl, fun _ => rfl⟩

theorem C9_deterministic_witness :
    Xgate (initSU 1 0) 0 = Xgate (initSU 1 0) 0
    ∧ (EntangleBitList (initSU 1 0) []).units = (EntangleBitList (initSU 1 0) []).units := by
  have h := C9_deterministic (initSU 1 0) (initSU 1 0) rfl
  exact ⟨h.1 0, h.2.2.2.2.2.2.2.2 []⟩

/-- C10: the source typedefs bound the engine — `bitLenInt` is `uint8_t`, so a
`SeparatedUnit` holds at most 255 qubits and index arithmetic such as
`start + length` wraps modulo 256 (200 + 100 yields 44, not 300); `bitCapInt`
is `uint64_t`, so register read-back values are reduced modulo 2^64; and a
range walk whose 8-bit index passes 255 silently wraps around to low indices
(the walk from 200 of length 100 reads index 0 again) instead of failing. -/
theorem C10_word_sizes :
    (∀ q v, (initSU q v).nBits ≤ 255)
    ∧ (∀ a b, add8 a b < 256)
    ∧ add8 200 100 = 44
    ∧ (∀ s a len, (MReg s a len).1 < 2 ^ 64)
    ∧ rangeIndices8 200 100 = (List.range 100).map (fun i => (200 + i) % 256)
    ∧ 0 ∈ rangeIndices8 200 100 ∧ 43 ∈ rangeIndices8 200 100 := by
  refine ⟨?_, ?_, by decide, ?_, rfl, by decide, by decide⟩
  · intro q v
    show q % 256 ≤ 255
    have := Nat.mod_lt q (show 0 < 256 by norm_num)
    omega
  · intro a b
    exact Nat.mod_lt _ (by norm_num)
  · intro s a len
    show regVal (EntangleBitList s (GetOrderedBitList s a len)) a len % 2 ^ 64 < 2 ^ 64
    exact Nat.mod_lt _ (by norm_num)

end Qrack
